import Mathlib

/-!
Verification development for the microplan ingestion engine.

The engine (files `transform.py`, `utils/boundary.py`, `utils/facility.py`,
`constants/constants.py`) reads hierarchical boundary rows and facility rows
from spreadsheets and upserts `Boundary` and `Facility` records into a
relational store.  This file gives a shallow embedding of the store, the
static configuration, the upsert routines and the row-processing loops of
`run_transform`, and proves properties of them.

Modelling conventions:
* the SQLAlchemy session plus database is a `DB` value: insertion-ordered
  lists of `Boundary` and `Facility` rows, a counter backing
  `generate_short_code`, and counters for the warning/error log lines the
  code emits;
* a committed ORM mutation of a fetched row is an in-place replacement of
  the list entry with the same primary key;
* a `commit` of a new `Facility` checks the `(facility_name, boundary_code)`
  primary-key constraint: on violation the code's `except` branch rolls the
  session back, so the model leaves the store unchanged and counts an error;
* spreadsheet cell values in the hierarchy-name columns are modelled as
  strings (the code applies `str()` to them) and target cells as optional
  integers (`None` for an empty cell, stored as SQL NULL);
* Python's `str.lower`/`str.strip` and SQLite's `lower`/`replace` are
  modelled by executable ASCII character-list functions (SQLite's `lower`
  folds ASCII only; all data handled by the claims is ASCII);
* the unbounded `while` walk over `parent_code` links is modelled with
  explicit fuel, `none` meaning the walk has not terminated within the
  given fuel.
-/

namespace Microplan

/-- ASCII lower-casing of one character, modelling `lower()` on the data
handled here. -/
def lowerChar (c : Char) : Char :=
  if 'A' ≤ c ∧ c ≤ 'Z' then Char.ofNat (c.toNat + 32) else c

/-- `s.lower()` / SQL `lower(s)`. -/
def lowerStr (s : String) : String :=
  String.mk (s.data.map lowerChar)

/-- Characters removed by Python `str.strip()`. -/
def isPyWS (c : Char) : Bool :=
  c = ' ' ∨ c = '\t' ∨ c = '\n' ∨ c = '\r' ∨ c = '\x0b' ∨ c = '\x0c'

/-- `s.strip()`. -/
def stripStr (s : String) : String :=
  String.mk (((s.data.dropWhile isPyWS).reverse.dropWhile isPyWS).reverse)

/-- `replace(s, " ", "")`: drop every space character. -/
def dropSpaces (s : String) : String :=
  String.mk (s.data.filter (fun c => c ≠ ' '))

/-- The name normalisation used by the facility queries:
`replace(lower(name), " ", "")`. -/
def normName (s : String) : String :=
  dropSpaces (lowerStr s)

/-- `",".join(l)`. -/
def joinComma : List String → String
  | [] => ""
  | [x] => x
  | x :: xs => x ++ "," ++ joinComma xs

/-- `s.split(sep)` on a character list. -/
def splitChars (sep : Char) : List Char → List (List Char)
  | [] => [[]]
  | c :: cs =>
      match splitChars sep cs with
      | [] => [[c]]
      | h :: t => if c = sep then [] :: h :: t else (c :: h) :: t

/-- `int(ds)` on a digit string (`none` when not a non-empty digit string). -/
def digitsVal (l : List Char) : Option Nat :=
  if l ≠ [] ∧ l.all Char.isDigit then
    some (l.foldl (fun n c => n * 10 + (c.toNat - 48)) 0)
  else none

/-- `int(t_name.split("_")[1])` on well-formed keys such as `"target_3"`
(the pipeline only ever builds such keys). -/
def targetIndexOf (t : String) : Nat :=
  (digitsVal ((splitChars '_' t.data).getD 1 [])).getD 0

/-- A row of the `egov_microplan_boundaries` table (`models/db/Boundary.py`).
The fifteen `target_i` / `total_i` integer columns are modelled as two
15-element lists (position `i - 1` holds column `target_i` / `total_i`);
`none` models SQL NULL, and the column default is `0`.  The two timestamp
columns are not modelled. -/
structure Boundary where
  code : String
  name : String
  name_in_english : String
  parent_code : Option String := none
  boundary_type : String
  boundary_level : Nat
  campaign_start_date : Option String := none
  campaign_end_date : Option String := none
  targets : List (Option Int) := List.replicate 15 (some 0)
  totals : List (Option Int) := List.replicate 15 (some 0)
  checklist_target : String := "\x7b\"fields\":[]\x7d"
  filename : Option String := none
deriving DecidableEq, Repr

/-- `getattr(b, f"target_{i}")`. -/
def Boundary.target (b : Boundary) (i : Nat) : Option Int :=
  (b.targets.get? (i - 1)).getD none

/-- `getattr(b, f"total_{i}")`. -/
def Boundary.total (b : Boundary) (i : Nat) : Option Int :=
  (b.totals.get? (i - 1)).getD none

/-- `setattr(b, f"target_{i}", v)`.  An index outside `1..15` names no
column, so the store is unaffected. -/
def Boundary.setTarget (b : Boundary) (i : Nat) (v : Option Int) : Boundary :=
  if 1 ≤ i ∧ i ≤ 15 then { b with targets := b.targets.set (i - 1) v } else b

/-- `setattr(b, f"total_{i}", v)`. -/
def Boundary.setTotal (b : Boundary) (i : Nat) (v : Option Int) : Boundary :=
  if 1 ≤ i ∧ i ≤ 15 then { b with totals := b.totals.set (i - 1) v } else b

/-- A row of the `egov_microplan_facilities` table (`models/db/Facility.py`).
The primary key is `(facility_name, boundary_code)`.  Address columns the
engine never touches are not modelled. -/
structure Facility where
  facility_name : String
  is_permanent : String := "FALSE"
  facility_type : String
  boundary_code : Option String := none
  administrative_area : Option String := none
  storage : Option Int := some 0
  parent_code : Option String := none
  target : Int := 0
  filename : Option String := none
deriving DecidableEq, Repr

/-- The persistent store plus session-global observables: the two tables in
insertion order, the counter backing `utils.common.generate_short_code`,
and the number of `logging.warning` / `logging.error` lines emitted. -/
structure DB where
  boundaries : List Boundary := []
  facilities : List Facility := []
  gensym : Nat := 0
  warnings : Nat := 0
  errors : Nat := 0
deriving DecidableEq, Repr

def DB.empty : DB := {}

/-- The opaque unique code text minted for counter value `n` (shortuuid
codes are opaque; any injective stream models them). -/
def shortCodeOf (n : Nat) : String :=
  String.mk ('g' :: List.replicate n 'I')

/-- `utils.common.generate_short_code()`: shortuuid mints fresh opaque
codes; modelled by a counter driving an injective code stream. -/
def genShortCode (st : DB) : String × DB :=
  (shortCodeOf st.gensym, { st with gensym := st.gensym + 1 })

/-! ## Static configuration (`constants/constants.py`) -/

def BOUNDARY_1_CODE : String := "mz"
def BOUNDARY_2_CODE : String := "f59850de767417d5e8378n"
def BOUNDARY_2_NAME : String := "Niassa"

/-- One entry of the `BOUNDARIES` ordered dict: key, display name, numeric
level, and the optional spreadsheet column / static code. -/
structure LevelInfo where
  key : String
  name : String
  level : Nat
  column : Option String := none
  code : Option String := none
deriving DecidableEq, Repr

/-- `constants.BOUNDARIES`, in dict order. -/
def BOUNDARIES : List LevelInfo :=
  [ { key := "BOUNDARY_1", name := "COUNTRY", level := 1, code := some BOUNDARY_1_CODE },
    { key := "BOUNDARY_2", name := "Provincia", level := 2, column := some "B" },
    { key := "BOUNDARY_3", name := "Distrito", level := 3, column := some "C" },
    { key := "BOUNDARY_4", name := "Posto Administrativo", level := 4, column := some "D" },
    { key := "BOUNDARY_5", name := "Localidade", level := 5, column := some "E" },
    { key := "BOUNDARY_6", name := "Unidade Sanitaria", level := 6, column := some "F" },
    { key := "BOUNDARY_7", name := "Aldeia", level := 7, column := some "G" } ]

/-- `constants.TARGET_COLUMNS`, in dict order. -/
def TARGET_COLUMNS : List (String × String) :=
  [("target_1", "H"), ("target_2", "I"), ("target_3", "J"),
   ("target_4", "K"), ("target_5", "L")]

/-- `max(info["level"] for info in constants.BOUNDARIES.values())`. -/
def maxBoundaryLevel : Nat :=
  (BOUNDARIES.map (·.level)).foldl max 0

/-- `constants.get_boundary_name(level)`. -/
def get_boundary_name (level : Nat) : String :=
  match BOUNDARIES.find? (fun e => e.level == level) with
  | some e => e.key
  | none => "Invalid level"

/-- `constants.BOUNDARIES[key]["level"]` (all call sites use keys present
in the dict). -/
def boundary_level_of (key : String) : Nat :=
  ((BOUNDARIES.find? (fun e => e.key == key)).map (·.level)).getD 0

/-- `constants.BOUNDARIES[key]["name"]`. -/
def boundary_type_of (key : String) : String :=
  ((BOUNDARIES.find? (fun e => e.key == key)).map (·.name)).getD ""

/-! ## Boundary upserts (`utils/boundary.py`) -/

/-- The committed in-place ORM update of a fetched boundary row: the list
entry with the row's primary key (`code`) is replaced. -/
def replaceByCode (bs : List Boundary) (code : String) (nb : Boundary) : List Boundary :=
  bs.map (fun b => if b.code == code then nb else b)

/-- The lookup at the head of `upsert_boundary`:
`query(Boundary).filter(lower(name) == boundary_name.strip().lower())
.filter_by(parent_code=previous_boundary, boundary_type=boundary_type).first()`.
A SQL equality on `parent_code` never matches NULL. -/
def boundary_query (bs : List Boundary) (boundary_name previous_boundary boundary_type : String) :
    Option Boundary :=
  bs.find? (fun b =>
    lowerStr b.name == lowerStr (stripStr boundary_name) &&
    b.parent_code == some previous_boundary &&
    b.boundary_type == boundary_type)

/-- The target block of `upsert_boundary` (its "Touch targets ONLY for the
deepest boundary level" section): when the resolved boundary sits at the
deepest configured level, `target_i`/`total_i` are zeroed for
`i in range(1, 4)` and then each `(t_name, t_value)` pair of the non-empty
`targets` dict is written to the columns named by `t_name`. -/
def touch_targets (b : Boundary) (targets : List (String × Option Int)) : Boundary :=
  if b.boundary_level == maxBoundaryLevel then
    let b := ([1, 2, 3].foldl (fun b i =>
      (b.setTarget i (some 0)).setTotal i (some 0)) b)
    if targets.isEmpty then b
    else targets.foldl (fun b tv =>
      let idx := targetIndexOf tv.1
      (b.setTarget idx tv.2).setTotal idx tv.2) b
  else b

/-- `utils.boundary.upsert_boundary` with every commit succeeding.  Returns
the updated store and the boundary object the function returns.  In the
model the name argument is already a string (the code's
`str(boundary_name)` coercion). -/
def upsert_boundary (boundary_name boundary_enum previous_boundary boundary_type : String)
    (filename : Option String) (targets : List (String × Option Int)) (st : DB) :
    DB × Boundary :=
  match boundary_query st.boundaries boundary_name previous_boundary boundary_type with
  | none =>
      let (code, st) := genShortCode st
      let b : Boundary :=
        { name := stripStr boundary_name,
          name_in_english := stripStr boundary_name,
          code := code,
          boundary_type := boundary_type,
          boundary_level := boundary_level_of boundary_enum,
          parent_code := some previous_boundary,
          filename := filename }
      let b := touch_targets b targets
      ({ st with boundaries := st.boundaries ++ [b] }, b)
  | some b0 =>
      let b1 := match filename with
        | some f => { b0 with filename := some f }
        | none => b0
      let b2 := touch_targets b1 targets
      ({ st with boundaries := replaceByCode st.boundaries b0.code b2 }, b2)

/-- The lookup at the head of `upsert_boundary_2` (the later definition in
`utils/boundary.py`, which is the one in effect): match on lower-cased
name, static `code` and `boundary_type`. -/
def boundary2_query (bs : List Boundary) (state_name state_code boundary_type : String) :
    Option Boundary :=
  bs.find? (fun b =>
    lowerStr b.name == lowerStr (stripStr state_name) &&
    b.code == state_code &&
    b.boundary_type == boundary_type)

/-- `utils.boundary.upsert_boundary_2` (the effective, later definition)
with every commit succeeding: insert the static province boundary if the
lookup misses, then, when `filename` is truthy, store it on the row. -/
def upsert_boundary_2 (state_name state_code boundary_name : String)
    (filename : Option String) (st : DB) : DB × Boundary :=
  let boundary_type := boundary_type_of boundary_name
  let (st1, b) :=
    match boundary2_query st.boundaries state_name state_code boundary_type with
    | some b0 => (st, b0)
    | none =>
        let b : Boundary :=
          { name := stripStr state_name,
            name_in_english := stripStr state_name,
            code := state_code,
            boundary_type := boundary_type,
            boundary_level := boundary_level_of boundary_name,
            parent_code := some BOUNDARY_1_CODE }
        ({ st with boundaries := st.boundaries ++ [b] }, b)
  match filename with
  | some f =>
      if f == "" then (st1, b)
      else
        let b' := { b with filename := some f }
        ({ st1 with boundaries := replaceByCode st1.boundaries b.code b' }, b')
  | none => (st1, b)

/-! ## Facility reconciliation (`utils/facility.py`) -/

/-- The candidate query of `create_health_facility`: boundaries whose name
matches the lookup name case-insensitively ignoring spaces, restricted to
`boundary_level == 4`, and further restricted to the `BOUNDARY_4` display
type when the caller passes `facility_type == "LGA Facility"`. -/
def facility_matches (bs : List Boundary) (lookup_name facility_type : String) :
    List Boundary :=
  let q := bs.filter (fun b =>
    normName b.name == normName lookup_name && b.boundary_level == 4)
  if facility_type == "LGA Facility" then
    q.filter (fun b => b.boundary_type == boundary_type_of "BOUNDARY_4")
  else q

/-- `query(Boundary).filter_by(code=c).first()`. -/
def lookupByCode (bs : List Boundary) (c : String) : Option Boundary :=
  bs.find? (fun b => b.code == c)

/-- The `while code and code != constants.BOUNDARY_1_CODE` ancestor walk of
`create_health_facility`, with explicit fuel; `none` means the walk has not
terminated within `fuel` iterations. -/
def ancestorsAux (bs : List Boundary) (fuel : Nat) (code : Option String) :
    Option (List String) :=
  match fuel with
  | 0 =>
      match code with
      | none => some []
      | some c => if c == BOUNDARY_1_CODE then some [] else none
  | fuel + 1 =>
      match code with
      | none => some []
      | some c =>
          if c == BOUNDARY_1_CODE then some []
          else
            let next := match lookupByCode bs c with
              | some p => p.parent_code
              | none => none
            (ancestorsAux bs fuel next).map (fun l => c :: l)

/-- The `parent_name` computed per candidate: the name of the boundary the
candidate's `parent_code` points at, if any. -/
def parent_name_of (bs : List Boundary) (b : Boundary) : Option String :=
  match b.parent_code with
  | none => none
  | some pc =>
      match lookupByCode bs pc with
      | some p => some p.name
      | none => none

/-- The existence lookup of `create_health_facility`: facilities joined to
their level-4 boundary, matched on the space-insensitive lower-cased name,
the candidate's `boundary_code`, and `administrative_area == parent_name`. -/
def find_existing_facility (st : DB) (lookup_name : String) (boundary_code : String)
    (parent_name : Option String) : Option Facility :=
  st.facilities.find? (fun f =>
    normName f.facility_name == normName lookup_name &&
    f.boundary_code == some boundary_code &&
    f.administrative_area == parent_name &&
    st.boundaries.any (fun b => some b.code == f.boundary_code && b.boundary_level == 4))

/-- Committing a freshly added `Facility`: enforce the
`(facility_name, boundary_code)` primary key.  On violation the code's
`except` branch rolls back and logs an error, leaving the store unchanged. -/
def commitInsertFacility (st : DB) (f : Facility) : DB :=
  if st.facilities.any (fun g =>
      g.facility_name == f.facility_name && g.boundary_code == f.boundary_code) then
    { st with errors := st.errors + 1 }
  else
    { st with facilities := st.facilities ++ [f] }

/-- The committed in-place update of a fetched facility row (matched by its
primary key). -/
def replaceFacility (fs : List Facility) (old new : Facility) : List Facility :=
  fs.map (fun g =>
    if g.facility_name == old.facility_name && g.boundary_code == old.boundary_code
    then new else g)

/-- The `Facility(...)` constructor call on the insert path of
`create_health_facility`. -/
def facility_insert_row (facility_name mapping_boundary facility_type : String)
    (filename : Option String) (target : Int) (boundary : Boundary)
    (ancestors : List String) : Facility :=
  { facility_name := stripStr facility_name,
    is_permanent := "TRUE",
    facility_type := facility_type,
    boundary_code := some boundary.code,
    administrative_area := some mapping_boundary,
    storage := some 0,
    parent_code := some (joinComma ancestors),
    target := target,
    filename := filename }

/-- The four assignments on the update path of `create_health_facility`:
target, type, parent chain and filename are overwritten,
`administrative_area` is not. -/
def facility_update_row (existing : Facility) (facility_type : String)
    (filename : Option String) (target : Int) (ancestors : List String) : Facility :=
  { existing with
    target := target,
    facility_type := facility_type,
    parent_code := some (joinComma ancestors),
    filename := filename }

/-- The per-candidate body of `create_health_facility`'s
`for boundary in matches` loop. -/
def process_candidate (fuel : Nat) (facility_name lookup_name mapping_boundary
    facility_type : String) (filename : Option String) (target : Int)
    (st : DB) (boundary : Boundary) : Option DB :=
  match ancestorsAux st.boundaries fuel boundary.parent_code with
  | none => none
  | some ancestors =>
      let parent_name := parent_name_of st.boundaries boundary
      match find_existing_facility st lookup_name boundary.code parent_name with
      | none =>
          some (commitInsertFacility st
            (facility_insert_row facility_name mapping_boundary facility_type
              filename target boundary ancestors))
      | some existing =>
          let updated := facility_update_row existing facility_type filename target ancestors
          some { st with facilities := replaceFacility st.facilities existing updated }

/-- The `for boundary in matches` loop. -/
def process_candidates (fuel : Nat) (facility_name lookup_name mapping_boundary
    facility_type : String) (filename : Option String) (target : Int) :
    List Boundary → DB → Option DB
  | [], st => some st
  | b :: rest, st =>
      match process_candidate fuel facility_name lookup_name mapping_boundary
        facility_type filename target st b with
      | none => none
      | some st' =>
          process_candidates fuel facility_name lookup_name mapping_boundary
            facility_type filename target rest st'

/-- `utils.facility.create_health_facility` with every commit succeeding
except primary-key violations (which its `except` branches absorb).
`none` models the non-termination of the ancestor walk. -/
def create_health_facility (fuel : Nat) (facility_name mapping_boundary facility_type : String)
    (filename : Option String) (target : Int) (st : DB) : Option DB :=
  let lookup_name := stripStr facility_name
  let cands := facility_matches st.boundaries lookup_name facility_type
  if cands.isEmpty then
    some { st with warnings := st.warnings + 1 }
  else
    process_candidates fuel facility_name lookup_name mapping_boundary
      facility_type filename target cands st

/-! ## The pipeline (`transform.py`, `run_transform`) -/

/-- One spreadsheet row of a boundary file: the hierarchy-name cells,
indexed by column letter (`none` = empty cell), and the target cells. -/
structure BRow where
  cells : String → Option String
  tcells : String → Option Int

/-- A worksheet with its visibility flag. -/
structure BSheet where
  visible : Bool := true
  rows : List BRow

/-- One boundary workbook: its path (used as `filename` provenance) and its
sheets. -/
structure BFile where
  path : String
  sheets : List BSheet

/-- One facility row: `vals[0]` (facility name, column A) and `vals[2]`
(administrative-area mapping, column C). -/
structure FRow where
  fac_name : Option String := none
  mapping : Option String := none

structure FSheet where
  visible : Bool := true
  rows : List FRow

structure FFile where
  path : String
  sheets : List FSheet

/-- The `boundaries` dict of `run_transform`, reduced to the only attribute
ever read back from it (`.code`): configuration key to boundary code. -/
def BMap := String → Option String

def BMap.set (m : BMap) (k : String) (v : String) : BMap :=
  fun x => if x == k then some v else m x

/-- The initial `boundaries` dict: `BOUNDARY_1` maps to the transient
country object `Boundary(code=constants.BOUNDARY_1_CODE)`, which is never
added to the session. -/
def initialBMap : BMap :=
  fun k => if k == "BOUNDARY_1" then some BOUNDARY_1_CODE else none

/-- Python truthiness of an optional string cell (`if not fac_name`). -/
def falsyCell : Option String → Bool
  | none => true
  | some s => s == ""

/-- The target-extraction loop of `run_transform`: for each configured
entry at the deepest level whose column holds a non-empty cell, rebuild the
`targets` dict from the row's `TARGET_COLUMNS` cells (every rebuild yields
the same dict, so the result is that dict when some entry qualifies, and
the empty dict otherwise). -/
def extract_targets (row : BRow) : List (String × Option Int) :=
  if BOUNDARIES.any (fun e =>
      e.level ≥ maxBoundaryLevel &&
      (match e.column with
       | some c => (row.cells c).isSome
       | none => false)) then
    TARGET_COLUMNS.map (fun tc => (tc.1, row.tcells tc.2))
  else []

/-- The body of the hierarchy loop of `run_transform` for one configured
entry `e` with `e.level >= 3`: skip when the entry has no column or the
cell is empty; crash (`KeyError`, modelled as `none`) when the previous
level was never resolved; otherwise upsert and record the resolved code. -/
def process_level (fname : String) (targets : List (String × Option Int))
    (st : DB) (bmap : BMap) (row : BRow) (e : LevelInfo) : Option (DB × BMap) :=
  if e.level ≥ 3 then
    match e.column with
    | none => some (st, bmap)
    | some col =>
        match row.cells col with
        | none => some (st, bmap)
        | some v =>
            let bname := v
            let btype := e.name
            let prev_key := get_boundary_name (e.level - 1)
            match bmap prev_key with
            | none => none
            | some prev_code =>
                let (st', b) := upsert_boundary bname e.key prev_code btype
                  (some fname) targets st
                some (st', bmap.set e.key b.code)
  else some (st, bmap)

/-- The hierarchy loop over the configured entries, in dict order. -/
def process_levels (fname : String) (targets : List (String × Option Int))
    (row : BRow) : List LevelInfo → DB × BMap → Option (DB × BMap)
  | [], (st, bmap) => some (st, bmap)
  | e :: rest, (st, bmap) =>
      match process_level fname targets st bmap row e with
      | none => none
      | some stb => process_levels fname targets row rest stb

/-- Processing of one boundary row: extract the deepest-level targets, then
run the hierarchy loop. -/
def process_brow (fname : String) (st : DB) (bmap : BMap) (row : BRow) :
    Option (DB × BMap) :=
  process_levels fname (extract_targets row) row BOUNDARIES (st, bmap)

def process_brows (fname : String) : List BRow → DB × BMap → Option (DB × BMap)
  | [], stb => some stb
  | row :: rest, (st, bmap) =>
      match process_brow fname st bmap row with
      | none => none
      | some stb => process_brows fname rest stb

def process_bsheets (fname : String) : List BSheet → DB × BMap → Option (DB × BMap)
  | [], stb => some stb
  | ws :: rest, stb =>
      if ws.visible then
        match process_brows fname ws.rows stb with
        | none => none
        | some stb' => process_bsheets fname rest stb'
      else process_bsheets fname rest stb

/-- Processing of one boundary file: upsert the static province boundary
(recording it in the dict), then process the visible sheets. -/
def process_bfile (f : BFile) (st : DB) (bmap : BMap) : Option (DB × BMap) :=
  let (st1, b2) := upsert_boundary_2 BOUNDARY_2_NAME BOUNDARY_2_CODE "BOUNDARY_2"
    (some f.path) st
  process_bsheets f.path f.sheets (st1, bmap.set "BOUNDARY_2" b2.code)

def process_bfiles : List BFile → DB × BMap → Option (DB × BMap)
  | [], stb => some stb
  | f :: rest, (st, bmap) =>
      match process_bfile f st bmap with
      | none => none
      | some stb => process_bfiles rest stb

/-- Processing of one facility row: skip when the name or mapping cell is
falsy, else reconcile with `facility_type="Health Facility"` and
`target=0`.  The walk fuel is one more than the size of the boundary
table, enough whenever the parent chains terminate. -/
def process_frow (fname : String) (st : DB) (row : FRow) : Option DB :=
  if falsyCell row.fac_name || falsyCell row.mapping then some st
  else
    create_health_facility (st.boundaries.length + 1)
      ((row.fac_name).getD "") ((row.mapping).getD "") "Health Facility"
      (some fname) 0 st

def process_frows (fname : String) : List FRow → DB → Option DB
  | [], st => some st
  | row :: rest, st =>
      match process_frow fname st row with
      | none => none
      | some st' => process_frows fname rest st'

def process_fsheets (fname : String) : List FSheet → DB → Option DB
  | [], st => some st
  | ws :: rest, st =>
      if ws.visible then
        match process_frows fname ws.rows st with
        | none => none
        | some st' => process_fsheets fname rest st'
      else process_fsheets fname rest st

def process_ffiles : List FFile → DB → Option DB
  | [], st => some st
  | f :: rest, st =>
      match process_fsheets f.path f.sheets st with
      | none => none
      | some st' => process_ffiles rest st'

/-- `run_transform` without a checklist file: create (or reopen) the store,
process every boundary file, then every facility file.  `none` models an
uncaught `KeyError` (a level processed before its parent level was ever
resolved) or a diverging ancestor walk. -/
def run_transform (bfiles : List BFile) (ffiles : List FFile) (st : DB) : Option DB :=
  match process_bfiles bfiles (st, initialBMap) with
  | none => none
  | some (st1, _) => process_ffiles ffiles st1

/-! ## Commit-failure analysis

The same routines with the outcome of `session.commit()` made explicit:
`commitFail = true` means every commit attempted in the call raises a
persistence error.  A failing commit leaves the store unchanged (the
transaction is not applied).  `Except.error ()` models an exception
escaping the routine to its caller; a caught exception is logged
(`errors` counter) instead. -/

/-- `upsert_boundary` with explicit commit outcome.  Its whole write path
sits in a `try`/`except Exception` that logs and falls through to
`return boundary`, so a failing commit is absorbed: the store keeps only
the log line and the function still hands back the (unpersisted) object. -/
def upsert_boundaryE (commitFail : Bool) (boundary_name boundary_enum previous_boundary
    boundary_type : String) (filename : Option String)
    (targets : List (String × Option Int)) (st : DB) : Except Unit (DB × Boundary) :=
  match boundary_query st.boundaries boundary_name previous_boundary boundary_type with
  | none =>
      let (code, st') := genShortCode st
      let b : Boundary :=
        { name := stripStr boundary_name,
          name_in_english := stripStr boundary_name,
          code := code,
          boundary_type := boundary_type,
          boundary_level := boundary_level_of boundary_enum,
          parent_code := some previous_boundary,
          filename := filename }
      let b := touch_targets b targets
      if commitFail then .ok ({ st' with errors := st'.errors + 1 }, b)
      else .ok ({ st' with boundaries := st'.boundaries ++ [b] }, b)
  | some b0 =>
      let b1 := match filename with
        | some f => { b0 with filename := some f }
        | none => b0
      let b2 := touch_targets b1 targets
      if commitFail then .ok ({ st with errors := st.errors + 1 }, b2)
      else .ok ({ st with boundaries := replaceByCode st.boundaries b0.code b2 }, b2)

/-- The effective `upsert_boundary_2` with explicit commit outcome.  Its
two commits (after the insert, and after storing a truthy `filename`) are
not wrapped in any `try`, so a failing commit raises out of the function. -/
def upsert_boundary_2E (commitFail : Bool) (state_name state_code boundary_name : String)
    (filename : Option String) (st : DB) : Except Unit (DB × Boundary) :=
  let boundary_type := boundary_type_of boundary_name
  match boundary2_query st.boundaries state_name state_code boundary_type with
  | some b0 =>
      match filename with
      | some f =>
          if f == "" then .ok (st, b0)
          else if commitFail then .error ()
          else
            let b' := { b0 with filename := some f }
            .ok ({ st with boundaries := replaceByCode st.boundaries b0.code b' }, b')
      | none => .ok (st, b0)
  | none =>
      if commitFail then .error ()
      else
        let b : Boundary :=
          { name := stripStr state_name,
            name_in_english := stripStr state_name,
            code := state_code,
            boundary_type := boundary_type,
            boundary_level := boundary_level_of boundary_name,
            parent_code := some BOUNDARY_1_CODE }
        let st1 := { st with boundaries := st.boundaries ++ [b] }
        match filename with
        | some f =>
            if f == "" then .ok (st1, b)
            else
              let b' := { b with filename := some f }
              .ok ({ st1 with boundaries := replaceByCode st1.boundaries b.code b' }, b')
        | none => .ok (st1, b)

/-- The per-candidate body with explicit commit outcome: both its commits
sit in `try`/`except` blocks that roll back and log, so a failing commit
is absorbed into an error log line. -/
def process_candidateE (commitFail : Bool) (fuel : Nat) (facility_name lookup_name
    mapping_boundary facility_type : String) (filename : Option String) (target : Int)
    (st : DB) (boundary : Boundary) : Option DB :=
  match ancestorsAux st.boundaries fuel boundary.parent_code with
  | none => none
  | some ancestors =>
      let parent_name := parent_name_of st.boundaries boundary
      match find_existing_facility st lookup_name boundary.code parent_name with
      | none =>
          some (if commitFail then { st with errors := st.errors + 1 }
                else commitInsertFacility st
                  (facility_insert_row facility_name mapping_boundary facility_type
                    filename target boundary ancestors))
      | some existing =>
          let updated := facility_update_row existing facility_type filename target ancestors
          some (if commitFail then { st with errors := st.errors + 1 }
                else { st with facilities := replaceFacility st.facilities existing updated })

def process_candidatesE (commitFail : Bool) (fuel : Nat) (facility_name lookup_name
    mapping_boundary facility_type : String) (filename : Option String) (target : Int) :
    List Boundary → DB → Option DB
  | [], st => some st
  | b :: rest, st =>
      match process_candidateE commitFail fuel facility_name lookup_name mapping_boundary
        facility_type filename target st b with
      | none => none
      | some st' =>
          process_candidatesE commitFail fuel facility_name lookup_name mapping_boundary
            facility_type filename target rest st'

/-- `create_health_facility` with explicit commit outcome: every commit is
inside a local `try`/`except`, so no exception escapes (`Except.ok`
always); the inner `Option` is the ancestor-walk fuel as before. -/
def create_health_facilityE (commitFail : Bool) (fuel : Nat)
    (facility_name mapping_boundary facility_type : String)
    (filename : Option String) (target : Int) (st : DB) : Except Unit (Option DB) :=
  let lookup_name := stripStr facility_name
  let cands := facility_matches st.boundaries lookup_name facility_type
  if cands.isEmpty then
    .ok (some { st with warnings := st.warnings + 1 })
  else
    .ok (process_candidatesE commitFail fuel facility_name lookup_name mapping_boundary
      facility_type filename target cands st)

/-! ## The ancestor-chain relation

The specification's description of the provenance chain: the ordered
ancestor boundary codes obtained by walking `parent_code` links upward
from a starting reference until it is exhausted (`NULL`), reaches the root
code (which is excluded), or dangles (a code with no stored boundary,
which ends the walk after being collected). -/

inductive IsAncestorChain (bs : List Boundary) : Option String → List String → Prop where
  | nil_none : IsAncestorChain bs none []
  | nil_root : IsAncestorChain bs (some BOUNDARY_1_CODE) []
  | cons_found {c : String} {b : Boundary} {l : List String} :
      c ≠ BOUNDARY_1_CODE → lookupByCode bs c = some b →
      IsAncestorChain bs b.parent_code l → IsAncestorChain bs (some c) (c :: l)
  | cons_dangling {c : String} :
      c ≠ BOUNDARY_1_CODE → lookupByCode bs c = none →
      IsAncestorChain bs (some c) [c]

/-! ## Invariants -/

/-- A stored boundary's type determines its level as the configuration
prescribes (the pipeline only creates boundaries whose `boundary_type` is
a configured display name with the matching configured level). -/
def TypeLevelOK (st : DB) : Prop :=
  ∀ b ∈ st.boundaries, ∀ e ∈ BOUNDARIES, b.boundary_type = e.name → b.boundary_level = e.level

/-- The hierarchy invariant for levels above 2: the parent code of a
boundary deeper than the province resolves to a stored boundary exactly
one level up. -/
def HierOK (st : DB) : Prop :=
  ∀ b ∈ st.boundaries, 2 < b.boundary_level →
    ∃ p ∈ st.boundaries, some p.code = b.parent_code ∧ p.boundary_level + 1 = b.boundary_level

/-- Every stored boundary sits at level 2 or deeper (the level-1 country
object is never persisted). -/
def LevelsOK (st : DB) : Prop :=
  ∀ b ∈ st.boundaries, 2 ≤ b.boundary_level

/-- Every stored code is either the static province code or one already
minted by the code stream. -/
def GensymOK (st : DB) : Prop :=
  ∀ b ∈ st.boundaries, b.code = BOUNDARY_2_CODE ∨
    ∃ k ∈ List.range st.gensym, b.code = shortCodeOf k

/-- `code` is the primary key of the boundary table: no two rows share it. -/
def CodesNodup (st : DB) : Prop :=
  (st.boundaries.map (·.code)).Nodup

/-- The static province code is only ever carried by the static province
row (same lower-cased name and type), which is what its upsert query
matches on. -/
def ProvOK (st : DB) : Prop :=
  ∀ b ∈ st.boundaries, b.code = BOUNDARY_2_CODE →
    lowerStr b.name = lowerStr (stripStr BOUNDARY_2_NAME) ∧ b.boundary_type = "Provincia"

def StoreInv (st : DB) : Prop :=
  TypeLevelOK st ∧ HierOK st ∧ LevelsOK st ∧ GensymOK st ∧ CodesNodup st ∧ ProvOK st

/-- Every code recorded in the `boundaries` dict for a configured level of
2 or more resolves to a stored boundary at that level. -/
def MapInv (st : DB) (bmap : BMap) : Prop :=
  ∀ e ∈ BOUNDARIES, 2 ≤ e.level → ∀ c, bmap e.key = some c →
    ∃ b ∈ st.boundaries, b.code = c ∧ b.boundary_level = e.level

/-- Codes together with their levels survive a store transformation. -/
def CodesLevels (st st' : DB) : Prop :=
  ∀ c lvl, (∃ x ∈ st.boundaries, x.code = c ∧ x.boundary_level = lvl) →
    ∃ x ∈ st'.boundaries, x.code = c ∧ x.boundary_level = lvl

/-- Every stored facility carries the constants the pipeline passes or
sets: `target=0`, `facility_type="Health Facility"`, `is_permanent="TRUE"`,
`storage=0`. -/
def FacInv (st : DB) : Prop :=
  ∀ f ∈ st.facilities, f.target = 0 ∧ f.facility_type = "Health Facility" ∧
    f.is_permanent = "TRUE" ∧ f.storage = some 0

/-- The `targets` dict shape the pipeline always passes to the deepest
level: exactly the keys of `TARGET_COLUMNS`, with the row's five target
cells as values (see `extract_targets`). -/
def pipeline_targets (v1 v2 v3 v4 v5 : Option Int) : List (String × Option Int) :=
  [("target_1", v1), ("target_2", v2), ("target_3", v3),
   ("target_4", v4), ("target_5", v5)]

/-! ## Concrete instances used by witnesses and counterexamples -/

/-- A boundary row carrying a district in column C and an administrative
post in column D, deeper cells empty. -/
def exRow1 : BRow :=
  { cells := fun c => if c == "C" then some "D1" else if c == "D" then some "Fac1" else none,
    tcells := fun _ => none }

def exBFile : BFile := { path := "bf", sheets := [{ rows := [exRow1] }] }

/-- A facility row whose name matches the level-4 boundary of `exRow1` and
whose mapping text differs from that boundary's parent name. -/
def exFRow : FRow := { fac_name := some "Fac1", mapping := some "AreaX" }

def exFFile : FFile := { path := "ff", sheets := [{ rows := [exFRow] }] }

/-- The store after one ingestion of `exBFile` then `exFFile`. -/
def c1st1 : DB := (run_transform [exBFile] [exFFile] DB.empty).getD DB.empty

/-- The store after ingesting the same input set a second time. -/
def c1st2 : DB := (run_transform [exBFile] [exFFile] c1st1).getD DB.empty

/-- The store after a boundary-only run of `exBFile`. -/
def c2st : DB := (run_transform [exBFile] [] DB.empty).getD DB.empty

/-- The level-3 district stored by that run (its minted code is the first
one of the code stream). -/
def c2b3 : Boundary :=
  (lookupByCode c2st.boundaries "g").getD
    { code := "", name := "", name_in_english := "", boundary_type := "",
      boundary_level := 0 }

/-- First row of the carryover scenario: district X, post Y. -/
def c3Row1 : BRow :=
  { cells := fun c => if c == "C" then some "X" else if c == "D" then some "Y" else none,
    tcells := fun _ => none }

/-- Second row: the district cell (level 3) is empty but the post cell
(level 4) holds Z. -/
def c3Row2 : BRow :=
  { cells := fun c => if c == "D" then some "Z" else none,
    tcells := fun _ => none }

def c3BFile : BFile := { path := "bf", sheets := [{ rows := [c3Row1, c3Row2] }] }

def c3st : DB := (run_transform [c3BFile] [] DB.empty).getD DB.empty

/-- The same file truncated to its first row, to compare stores before and
after the second row. -/
def c3BFile1 : BFile := { path := "bf", sheets := [{ rows := [c3Row1] }] }

def c3st1 : DB := (run_transform [c3BFile1] [] DB.empty).getD DB.empty

/-- A stored deepest-level boundary whose `target_6` column holds 9. -/
def c4B : Boundary :=
  { code := "c", name := "N", name_in_english := "N", parent_code := some "p",
    boundary_type := "Aldeia", boundary_level := 7,
    targets := [some 0, some 0, some 0, some 0, some 0, some 9, some 0, some 0,
                some 0, some 0, some 0, some 0, some 0, some 0, some 0] }

/-- A pipeline-shaped `targets` dict (its keys are exactly
`target_1 .. target_5`). -/
def c4T : List (String × Option Int) :=
  [("target_1", some 1), ("target_2", some 2), ("target_3", some 3),
   ("target_4", some 4), ("target_5", some 5)]

def c4St : DB := { boundaries := [c4B] }

/-- Two distinct level-4 boundaries both matching the name "Twin" up to
case and spacing, under the static province. -/
def b4a : Boundary :=
  { code := "ka", name := "Twin", name_in_english := "Twin", parent_code := some BOUNDARY_2_CODE,
    boundary_type := "Posto Administrativo", boundary_level := 4 }

def b4b : Boundary :=
  { code := "kb", name := "twin", name_in_english := "twin", parent_code := some BOUNDARY_2_CODE,
    boundary_type := "Posto Administrativo", boundary_level := 4 }

def bProv : Boundary :=
  { code := BOUNDARY_2_CODE, name := "Niassa", name_in_english := "Niassa",
    parent_code := some BOUNDARY_1_CODE, boundary_type := "Provincia", boundary_level := 2 }

def c6St : DB := { boundaries := [bProv, b4a, b4b] }

/-- Equality of the identity-bearing boundary columns (everything except
the target data and the filename). -/
def sameSkeleton (a b : Boundary) : Prop :=
  a.code = b.code ∧ a.name = b.name ∧ a.boundary_type = b.boundary_type ∧
  a.boundary_level = b.boundary_level ∧ a.parent_code = b.parent_code

/-- A store holding one level-4 candidate for the name "Twin" and an
already-stored facility with the matching primary key whose
`administrative_area` is the raw mapping text, not the parent name. -/
def c1Wf0 : Facility :=
  { facility_name := "Twin", is_permanent := "TRUE", facility_type := "Health Facility",
    boundary_code := some "ka", administrative_area := some "AreaX", storage := some 0,
    parent_code := some BOUNDARY_2_CODE, target := 0, filename := some "ff" }

def c1WSt : DB := { boundaries := [bProv, b4a], facilities := [c1Wf0] }

def c1Wres : DB :=
  (create_health_facility 4 "Twin" "M" "Health Facility" (some "ff") 0 c1WSt).getD DB.empty

/-- The store after one facility call against `c6St`. -/
def c8res : DB :=
  (create_health_facility 4 "Twin" "M" "Health Facility" (some "ff") 7 c6St).getD DB.empty

/-- A `boundaries` dict as it stands after earlier rows resolved the
province and a district with code "g0". -/
def c3Wbmap : BMap :=
  (initialBMap.set "BOUNDARY_2" BOUNDARY_2_CODE).set "BOUNDARY_3" "g0"

def c3Wst : DB := { boundaries := [bProv] }

/-- The row-processing result of the carryover row against that state. -/
def c3Wres : DB × BMap :=
  (process_brow "bf" c3Wst c3Wbmap c3Row2).getD (DB.empty, initialBMap)

/-- The first facility row that the call behind `c8res` inserts. -/
def c8fW : Facility :=
  { facility_name := "Twin", is_permanent := "TRUE", facility_type := "Health Facility",
    boundary_code := some "ka", administrative_area := some "M", storage := some 0,
    parent_code := some BOUNDARY_2_CODE, target := 7, filename := some "ff" }

/-! ## Helper lemmas -/

lemma targetIndexOf_t1 : targetIndexOf "target_1" = 1 := by decide

lemma targetIndexOf_t2 : targetIndexOf "target_2" = 2 := by decide

lemma targetIndexOf_t3 : targetIndexOf "target_3" = 3 := by decide

lemma targetIndexOf_t4 : targetIndexOf "target_4" = 4 := by decide

lemma targetIndexOf_t5 : targetIndexOf "target_5" = 5 := by decide

lemma exists_five_cons {α : Type} (l : List α) (h : 5 ≤ l.length) :
    ∃ x1 x2 x3 x4 x5 t, l = x1 :: x2 :: x3 :: x4 :: x5 :: t := by
  match l with
  | x1 :: x2 :: x3 :: x4 :: x5 :: t => exact ⟨x1, x2, x3, x4, x5, t, rfl⟩
  | [] | [_] | [_, _] | [_, _, _] | [_, _, _, _] => simp at h

/-- The walk result certifies the specification's ancestor-chain relation. -/
lemma isAncestorChain_of_ancestorsAux {bs : List Boundary} :
    ∀ {fuel : Nat} {code : Option String} {l : List String},
      ancestorsAux bs fuel code = some l → IsAncestorChain bs code l := by
  intro fuel
  induction fuel with
  | zero =>
      intro code l h
      match code with
      | none =>
          simp [ancestorsAux] at h
          subst h
          exact .nil_none
      | some c =>
          by_cases hc : c = BOUNDARY_1_CODE
          · subst hc
            simp [ancestorsAux] at h
            subst h
            exact .nil_root
          · simp [ancestorsAux, hc] at h
  | succ fuel ih =>
      intro code l h
      match code with
      | none =>
          simp [ancestorsAux] at h
          subst h
          exact .nil_none
      | some c =>
          by_cases hc : c = BOUNDARY_1_CODE
          · subst hc
            simp [ancestorsAux] at h
            subst h
            exact .nil_root
          · simp [ancestorsAux, hc] at h
            obtain ⟨l0, hl0, rfl⟩ := h
            cases hlk : lookupByCode bs c with
            | some p =>
                rw [hlk] at hl0
                exact .cons_found hc hlk (ih hl0)
            | none =>
                rw [hlk] at hl0
                cases fuel with
                | zero =>
                    simp [ancestorsAux] at hl0
                    subst hl0
                    exact .cons_dangling hc hlk
                | succ fuel =>
                    simp [ancestorsAux] at hl0
                    subst hl0
                    exact .cons_dangling hc hlk

/-- A terminating chain yields enough fuel for the walk to finish. -/
lemma ancestorsAux_total_of_chain {bs : List Boundary} {code : Option String}
    {l : List String} (h : IsAncestorChain bs code l) :
    ∃ fuel anc, ancestorsAux bs fuel code = some anc := by
  induction h with
  | nil_none => exact ⟨0, [], rfl⟩
  | nil_root => exact ⟨0, [], by simp [ancestorsAux]⟩
  | @cons_found c b l hne hlk _ ih =>
      obtain ⟨fuel, anc, hw⟩ := ih
      refine ⟨fuel + 1, c :: anc, ?_⟩
      simp [ancestorsAux, hne, hlk, hw]
  | @cons_dangling c hne hlk =>
      refine ⟨1, [c], ?_⟩
      simp [ancestorsAux, hne, hlk]

/-- Candidates returned by the facility query are stored boundaries. -/
lemma mem_of_mem_facility_matches {bs : List Boundary} {lookup ft : String} {b : Boundary}
    (h : b ∈ facility_matches bs lookup ft) : b ∈ bs := by
  unfold facility_matches at h
  split at h
  · exact List.mem_of_mem_filter (List.mem_of_mem_filter h)
  · exact List.mem_of_mem_filter h

/-! ## Claim C7 -/

/-- C7: when the name lookup of `create_health_facility` yields no level-4
candidate boundary, the call inserts no Facility row, logs exactly one
warning, does not raise (it returns normally), and leaves the store
otherwise unchanged.  (The lookup tests the facility name, not the
administrative-area text; see the counterexample for the claim as
stated.) -/
theorem C7_no_candidate_warns_and_skips (fuel : Nat)
    (facility_name mapping_boundary facility_type : String)
    (filename : Option String) (target : Int) (st : DB)
    (h : facility_matches st.boundaries (stripStr facility_name) facility_type = []) :
    create_health_facility fuel facility_name mapping_boundary facility_type
      filename target st = some { st with warnings := st.warnings + 1 } := by
  simp [create_health_facility, h]

/-- Witness for C7 at a concrete call: the name "Nowhere" matches no
boundary of the concrete store. -/
theorem C7_no_candidate_warns_and_skips_witness :
    create_health_facility 4 "Nowhere" "M" "Health Facility" (some "ff") 0 c6St
      = some { c6St with warnings := c6St.warnings + 1 } :=
  C7_no_candidate_warns_and_skips 4 "Nowhere" "M" "Health Facility" (some "ff") 0 c6St
    (by decide)

/-- C7 as stated is false: the candidate lookup matches the facility-name
text, not the administrative-area text.  Here the mapping "Nowhere"
matches no boundary at level 4, yet two Facility rows are inserted and no
warning is logged, because the facility name "Twin" matches two level-4
boundaries. -/
theorem C7_counterexample :
    facility_matches c6St.boundaries "Nowhere" "Health Facility" = [] ∧
    (create_health_facility 4 "Twin" "Nowhere" "Health Facility" (some "ff") 0 c6St).map
      (fun st => (st.facilities.length, st.warnings)) = some (2, 0) := by
  constructor
  · decide
  · decide

/-! ## Claim C10 -/

/-- C10: if every stored boundary's chain of `parent_code` links
eventually reaches a missing reference, a null parent, or the root code,
then the ancestor-collection loop of `create_health_facility` terminates
(some finite fuel completes the walk) for every candidate boundary the
facility query returns. -/
theorem C10_ancestor_walk_terminates (st : DB) (lookup_name facility_type : String)
    (hterm : ∀ b ∈ st.boundaries, ∃ l, IsAncestorChain st.boundaries b.parent_code l) :
    ∀ b ∈ facility_matches st.boundaries lookup_name facility_type,
      ∃ fuel anc, ancestorsAux st.boundaries fuel b.parent_code = some anc := by
  intro b hb
  obtain ⟨l, hl⟩ := hterm b (mem_of_mem_facility_matches hb)
  exact ancestorsAux_total_of_chain hl

/-- Witness for C10: the concrete store's chains terminate, and the walk
from the candidate `b4a` finishes. -/
theorem C10_ancestor_walk_terminates_witness :
    ∃ fuel anc, ancestorsAux c6St.boundaries fuel b4a.parent_code = some anc := by
  refine C10_ancestor_walk_terminates c6St (stripStr "Twin") "Health Facility" ?_ b4a
    (by decide)
  intro b hb
  have hmem : b = bProv ∨ b = b4a ∨ b = b4b := by
    simpa [c6St] using hb
  rcases hmem with rfl | rfl | rfl
  · exact ⟨[], .nil_root⟩
  · exact ⟨[BOUNDARY_2_CODE], .cons_found (by decide) rfl .nil_root⟩
  · exact ⟨[BOUNDARY_2_CODE], .cons_found (by decide) rfl .nil_root⟩

/-! ## Claim C5 -/

/-- C5 (amended): `upsert_boundary` and `create_health_facility` absorb a
failing commit locally (they log and return normally, so the batch
continues), but the effective `upsert_boundary_2` — the later definition
in `utils/boundary.py`, which shadows the earlier `try`-wrapped one — has
no handler around its commits: a commit failure there propagates to the
caller (`run_transform`), both when it inserts the province row and when
it stores a truthy filename on an existing row. -/
theorem C5_amended_commit_failure_policy :
    (∀ commitFail bname enum prev btype fn tg st,
       ∃ r, upsert_boundaryE commitFail bname enum prev btype fn tg st = .ok r) ∧
    (∀ commitFail fuel name mapping ft fn tgt st,
       ∃ r, create_health_facilityE commitFail fuel name mapping ft fn tgt st = .ok r) ∧
    (∀ st state_name state_code bkey fn,
       boundary2_query st.boundaries state_name state_code (boundary_type_of bkey) = none →
       upsert_boundary_2E true state_name state_code bkey fn st = .error ()) ∧
    (∀ st state_name state_code bkey f b0, f ≠ "" →
       boundary2_query st.boundaries state_name state_code (boundary_type_of bkey) = some b0 →
       upsert_boundary_2E true state_name state_code bkey (some f) st = .error ()) := by
  refine ⟨?_, ?_, ?_, ?_⟩
  · intro cf bn en pv bt fn tg st
    unfold upsert_boundaryE
    cases h : boundary_query st.boundaries bn pv bt <;> simp [h] <;> split <;>
      exact ⟨_, _, rfl⟩
  · intro cf fuel nm mp ft fn tg st
    unfold create_health_facilityE
    by_cases hc : (facility_matches st.boundaries (stripStr nm) ft).isEmpty <;>
      simp [hc]
  · intro st sn sc bkey fn hq
    simp [upsert_boundary_2E, hq]
  · intro st sn sc bkey f b0 hf hq
    simp [upsert_boundary_2E, hq, hf]

/-- Witness for C5 at concrete calls. -/
theorem C5_amended_commit_failure_policy_witness :
    (∃ r, upsert_boundaryE true "X" "BOUNDARY_3" "p" "Distrito" (some "bf") [] DB.empty
        = .ok r) ∧
    (∃ r, create_health_facilityE true 1 "X" "M" "Health Facility" (some "ff") 0 DB.empty
        = .ok r) ∧
    upsert_boundary_2E true "Prov" "pc" "BOUNDARY_2" (some "bf") DB.empty = .error () :=
  ⟨C5_amended_commit_failure_policy.1 true "X" "BOUNDARY_3" "p" "Distrito" (some "bf") []
      DB.empty,
   C5_amended_commit_failure_policy.2.1 true 1 "X" "M" "Health Facility" (some "ff") 0
      DB.empty,
   C5_amended_commit_failure_policy.2.2.1 DB.empty "Prov" "pc" "BOUNDARY_2" (some "bf") rfl⟩

/-- C5 as stated is false: a commit failure inside the effective
`upsert_boundary_2` escapes as an exception instead of being caught and
logged locally. -/
theorem C5_counterexample :
    upsert_boundary_2E true "Niassa" BOUNDARY_2_CODE "BOUNDARY_2" (some "bf") DB.empty
      = .error () := rfl

/-! ## Claim C4 -/

/-- C4 (amended): at the deepest configured level, `upsert_boundary`'s
target block zeroes only `target_1..3`/`total_1..3` (not every target
field) and then writes each field named in the `targets` dict; with the
pipeline-shaped dict (keys `target_1..5`) the resulting columns 1–5 hold
exactly the row's five values — so re-ingestion overwrites them — while
columns 6–15 keep their previous content.  Boundaries whose level is not
the deepest have no target or total field modified, and stored boundaries
other than the resolved one are left in the store untouched. -/
theorem C4_amended_targets_deepest_only :
    (∀ (b : Boundary) (v1 v2 v3 v4 v5 : Option Int),
       b.boundary_level = maxBoundaryLevel → 5 ≤ b.targets.length → 5 ≤ b.totals.length →
       (touch_targets b (pipeline_targets v1 v2 v3 v4 v5)).targets
           = [v1, v2, v3, v4, v5] ++ b.targets.drop 5 ∧
       (touch_targets b (pipeline_targets v1 v2 v3 v4 v5)).totals
           = [v1, v2, v3, v4, v5] ++ b.totals.drop 5) ∧
    (∀ (b : Boundary) (tg : List (String × Option Int)),
       b.boundary_level ≠ maxBoundaryLevel → touch_targets b tg = b) ∧
    (∀ bname enum prev btype fn tg st (x : Boundary), x ∈ st.boundaries →
       (∀ b0, boundary_query st.boundaries bname prev btype = some b0 → x.code ≠ b0.code) →
       x ∈ (upsert_boundary bname enum prev btype fn tg st).1.boundaries) := by
  refine ⟨?_, ?_, ?_⟩
  · intro b v1 v2 v3 v4 v5 hlev hT hTot
    obtain ⟨t1, t2, t3, t4, t5, tt, hts⟩ := exists_five_cons b.targets hT
    obtain ⟨u1, u2, u3, u4, u5, ut, hus⟩ := exists_five_cons b.totals hTot
    unfold touch_targets
    rw [hlev]
    constructor <;>
      simp [pipeline_targets, targetIndexOf_t1, targetIndexOf_t2, targetIndexOf_t3,
        targetIndexOf_t4, targetIndexOf_t5, Boundary.setTarget, Boundary.setTotal,
        hts, hus, List.set, List.foldl]
  · intro b tg hlev
    simp [touch_targets, hlev]
  · intro bn en pv bt fn tg st x hx hne
    unfold upsert_boundary
    cases h : boundary_query st.boundaries bn pv bt with
    | none =>
        simp only [genShortCode]
        exact List.mem_append_left _ hx
    | some b0 =>
        have hxc : x.code ≠ b0.code := hne b0 h
        simp only [replaceByCode]
        exact List.mem_map.mpr ⟨x, hx, by simp [hxc]⟩

/-- Witness for C4 at concrete inputs. -/
theorem C4_amended_targets_deepest_only_witness :
    (touch_targets c4B (pipeline_targets (some 1) (some 2) (some 3) (some 4) (some 5))).targets
        = [some 1, some 2, some 3, some 4, some 5] ++ c4B.targets.drop 5 ∧
    touch_targets { c4B with boundary_level := 6 } c4T = { c4B with boundary_level := 6 } :=
  ⟨(C4_amended_targets_deepest_only.1 c4B (some 1) (some 2) (some 3) (some 4) (some 5)
      (by decide) (by decide) (by decide)).1,
   C4_amended_targets_deepest_only.2.1 { c4B with boundary_level := 6 } c4T (by decide)⟩

/-- C4 as stated is false: on a deepest-level boundary whose `target_6`
column holds 9, an upsert with the default pipeline mapping (which names
only `target_1..5`) is claimed to first zero every target field, leaving
`target_6 = 0`; the code only zeroes `target_1..3` before writing the
mapped fields, so `target_6` keeps the value 9. -/
theorem C4_counterexample :
    c4B.boundary_level = maxBoundaryLevel ∧
    boundary_query c4St.boundaries "N" "p" "Aldeia" = some c4B ∧
    (upsert_boundary "N" "BOUNDARY_7" "p" "Aldeia" (some "bf") c4T c4St).2.target 6
        = some 9 ∧
    (some 9 : Option Int) ≠ some 0 := by
  refine ⟨by decide, by decide, by decide, by decide⟩

/-! ## Claim C6 -/

lemma facility_matches_props {bs : List Boundary} {lookup ft : String} {b : Boundary}
    (h : b ∈ facility_matches bs lookup ft) :
    normName b.name = normName lookup ∧ b.boundary_level = 4 := by
  unfold facility_matches at h
  have hq : b ∈ List.filter
      (fun b => normName b.name == normName lookup && b.boundary_level == 4) bs := by
    split at h
    · exact List.mem_of_mem_filter h
    · exact h
  have hp := List.of_mem_filter hq
  simp only [Bool.and_eq_true, beq_iff_eq] at hp
  exact hp

lemma name_ne_of_normName_ne {a b : String} (h : normName a ≠ normName b) : a ≠ b :=
  fun e => h (e ▸ rfl)

/-- When the existence lookup misses and the primary key is free, the
candidate body appends exactly one facility row built from the call's
arguments and the candidate's code and ancestor chain. -/
lemma process_candidate_inserts (fuel : Nat) (facility_name lookup mapping ft : String)
    (fn : Option String) (tgt : Int) (st : DB) (b : Boundary) (anc : List String)
    (hwalk : ancestorsAux st.boundaries fuel b.parent_code = some anc)
    (hfind : find_existing_facility st lookup b.code (parent_name_of st.boundaries b)
        = none)
    (hany : st.facilities.any (fun g => g.facility_name == stripStr facility_name &&
        g.boundary_code == some b.code) = false) :
    process_candidate fuel facility_name lookup mapping ft fn tgt st b
      = some { st with facilities := st.facilities ++
          [facility_insert_row facility_name mapping ft fn tgt b anc] } := by
  unfold process_candidate
  rw [hwalk]
  simp only [hfind]
  unfold commitInsertFacility
  simp [hany, facility_insert_row]

/-- C6: a facility call whose candidate query returns exactly two distinct
level-4 boundaries, with no facility of that name yet stored, inserts
exactly two Facility rows — one per candidate — each carrying that
candidate's code and both carrying the same target. -/
theorem C6_fanout (fuel : Nat) (name mapping ft : String) (fn : Option String) (tgt : Int)
    (st : DB) (b1 b2 : Boundary) (a1 a2 : List String)
    (hm : facility_matches st.boundaries (stripStr name) ft = [b1, b2])
    (hcode : b1.code ≠ b2.code)
    (hfresh : ∀ f ∈ st.facilities, normName f.facility_name ≠ normName (stripStr name))
    (hw1 : ancestorsAux st.boundaries fuel b1.parent_code = some a1)
    (hw2 : ancestorsAux st.boundaries fuel b2.parent_code = some a2) :
    ∃ f1 f2, create_health_facility fuel name mapping ft fn tgt st
        = some { st with facilities := st.facilities ++ [f1, f2] } ∧
      f1.boundary_code = some b1.code ∧ f2.boundary_code = some b2.code ∧
      f1.target = tgt ∧ f2.target = tgt ∧
      b1.boundary_level = 4 ∧ b2.boundary_level = 4 := by
  have hmem1 : b1 ∈ facility_matches st.boundaries (stripStr name) ft := by
    rw [hm]; exact List.mem_cons_self _ _
  have hmem2 : b2 ∈ facility_matches st.boundaries (stripStr name) ft := by
    rw [hm]; exact List.mem_cons_of_mem _ (List.mem_cons_self _ _)
  have hb1 := facility_matches_props hmem1
  have hb2 := facility_matches_props hmem2
  have hfind1 : find_existing_facility st (stripStr name) b1.code
      (parent_name_of st.boundaries b1) = none := by
    unfold find_existing_facility
    rw [List.find?_eq_none]
    intro f hf hp
    simp only [Bool.and_eq_true, beq_iff_eq] at hp
    exact hfresh f hf (by rw [hp.1.1.1])
  have hany1 : st.facilities.any (fun g => g.facility_name == stripStr name &&
      g.boundary_code == some b1.code) = false := by
    rw [List.any_eq_false]
    intro g hg hp
    simp only [Bool.and_eq_true, beq_iff_eq] at hp
    exact name_ne_of_normName_ne (hfresh g hg) hp.1
  have h1 := process_candidate_inserts fuel name (stripStr name) mapping ft fn tgt st b1 a1
    hw1 hfind1 hany1
  set f1 : Facility := facility_insert_row name mapping ft fn tgt b1 a1 with hf1
  set st1 : DB := { st with facilities := st.facilities ++ [f1] } with hst1
  have hbs1 : st1.boundaries = st.boundaries := rfl
  have hfind2 : find_existing_facility st1 (stripStr name) b2.code
      (parent_name_of st1.boundaries b2) = none := by
    unfold find_existing_facility
    rw [List.find?_eq_none]
    intro f hf hp
    simp only [Bool.and_eq_true, beq_iff_eq] at hp
    have hf' : f ∈ st.facilities ++ [f1] := hf
    rcases List.mem_append.mp hf' with hfo | hfn
    · exact hfresh f hfo (by rw [hp.1.1.1])
    · have : f = f1 := List.mem_singleton.mp hfn
      subst this
      have : b1.code = b2.code := by
        have := hp.1.1.2
        simpa [hf1, facility_insert_row] using this
      exact hcode this
  have hany2 : st1.facilities.any (fun g => g.facility_name == stripStr name &&
      g.boundary_code == some b2.code) = false := by
    rw [List.any_eq_false]
    intro g hg hp
    simp only [Bool.and_eq_true, beq_iff_eq] at hp
    have hg' : g ∈ st.facilities ++ [f1] := hg
    rcases List.mem_append.mp hg' with hgo | hgn
    · exact name_ne_of_normName_ne (hfresh g hgo) hp.1
    · have : g = f1 := List.mem_singleton.mp hgn
      subst this
      have : b1.code = b2.code := by
        have := hp.2
        simpa [hf1, facility_insert_row] using this
      exact hcode this
  have h2 := process_candidate_inserts fuel name (stripStr name) mapping ft fn tgt st1 b2 a2
    (by rw [hbs1, hw2]) hfind2 hany2
  refine ⟨f1, facility_insert_row name mapping ft fn tgt b2 a2, ?_, rfl, rfl, rfl, rfl,
    hb1.2, hb2.2⟩
  unfold create_health_facility
  simp only [hm, List.isEmpty_cons, Bool.false_eq_true, if_false]
  unfold process_candidates
  rw [h1]
  simp only []
  unfold process_candidates
  rw [h2]
  unfold process_candidates
  simp [hst1, List.append_assoc]

/-- Witness for C6 at the concrete two-candidate store. -/
theorem C6_fanout_witness :
    ∃ f1 f2, create_health_facility 4 "Twin" "M" "Health Facility" (some "ff") 7 c6St
        = some { c6St with facilities := c6St.facilities ++ [f1, f2] } ∧
      f1.boundary_code = some b4a.code ∧ f2.boundary_code = some b4b.code ∧
      f1.target = 7 ∧ f2.target = 7 ∧
      b4a.boundary_level = 4 ∧ b4b.boundary_level = 4 :=
  C6_fanout 4 "Twin" "M" "Health Facility" (some "ff") 7 c6St b4a b4b
    [BOUNDARY_2_CODE] [BOUNDARY_2_CODE]
    (by decide) (by decide) (by decide) (by decide) (by decide)

/-! ## Claim C8 -/

lemma find_existing_facility_props {st : DB} {lookup code : String} {pn : Option String}
    {f : Facility} (h : find_existing_facility st lookup code pn = some f) :
    f ∈ st.facilities ∧ normName f.facility_name = normName lookup ∧
    f.boundary_code = some code ∧ f.administrative_area = pn := by
  unfold find_existing_facility at h
  have hm := List.mem_of_find?_eq_some h
  have hp := List.find?_some h
  simp only [Bool.and_eq_true, beq_iff_eq] at hp
  exact ⟨hm, hp.1.1.1, hp.1.1.2, hp.1.2⟩

/-- Complete case analysis of one candidate-loop iteration: the bookkeeping
fields other than facilities and errors are untouched, and every facility
of the result either was already stored or is the freshly built insert row
or the overwrite of a stored row keyed by the candidate's code. -/
lemma process_candidate_cases {fuel : Nat} {fname lookup mp ft : String}
    {fn : Option String} {tgt : Int} {st : DB} {b : Boundary} {st' : DB}
    (h : process_candidate fuel fname lookup mp ft fn tgt st b = some st') :
    st'.boundaries = st.boundaries ∧ st'.warnings = st.warnings ∧
    st'.gensym = st.gensym ∧
    ∀ f ∈ st'.facilities, f ∈ st.facilities ∨
      ∃ anc, ancestorsAux st.boundaries fuel b.parent_code = some anc ∧
        (f = facility_insert_row fname mp ft fn tgt b anc ∨
         ∃ g ∈ st.facilities, f = facility_update_row g ft fn tgt anc ∧
           g.boundary_code = some b.code) := by
  unfold process_candidate at h
  cases hw : ancestorsAux st.boundaries fuel b.parent_code with
  | none => rw [hw] at h; exact absurd h (by simp)
  | some anc =>
      rw [hw] at h
      simp only [] at h
      cases hf : find_existing_facility st lookup b.code (parent_name_of st.boundaries b) with
      | none =>
          rw [hf] at h
          simp only [Option.some.injEq] at h
          subst h
          unfold commitInsertFacility
          split
          · exact ⟨rfl, rfl, rfl, fun f hfm => .inl hfm⟩
          · refine ⟨rfl, rfl, rfl, fun f hfm => ?_⟩
            rcases List.mem_append.mp hfm with hold | hnew
            · exact .inl hold
            · exact .inr ⟨anc, rfl, .inl (List.mem_singleton.mp hnew)⟩
      | some existing =>
          rw [hf] at h
          simp only [Option.some.injEq] at h
          subst h
          have hex := find_existing_facility_props hf
          refine ⟨rfl, rfl, rfl, fun f hfm => ?_⟩
          unfold replaceFacility at hfm
          obtain ⟨g, hg, hfe⟩ := List.mem_map.mp hfm
          by_cases hpk : (g.facility_name == existing.facility_name &&
              g.boundary_code == existing.boundary_code) = true
          · rw [if_pos hpk] at hfe
            exact .inr ⟨anc, rfl, .inr ⟨existing, hex.1, hfe.symm, hex.2.2.1⟩⟩
          · rw [if_neg (by simpa using hpk)] at hfe
            exact .inl (hfe ▸ hg)

lemma process_candidates_cases {fuel : Nat} {fname lookup mp ft : String}
    {fn : Option String} {tgt : Int} :
    ∀ {cands : List Boundary} {st st' : DB},
      process_candidates fuel fname lookup mp ft fn tgt cands st = some st' →
      (∀ b ∈ cands, b ∈ st.boundaries) →
      st'.boundaries = st.boundaries ∧
      ∀ f ∈ st'.facilities, f ∈ st.facilities ∨
        ∃ b ∈ st.boundaries, f.boundary_code = some b.code ∧
          ∃ l, IsAncestorChain st.boundaries b.parent_code l ∧
            f.parent_code = some (joinComma l) := by
  intro cands
  induction cands with
  | nil =>
      intro st st' h _
      unfold process_candidates at h
      simp only [Option.some.injEq] at h
      subst h
      exact ⟨rfl, fun f hf => .inl hf⟩
  | cons b rest ih =>
      intro st st' h hmem
      unfold process_candidates at h
      cases h1 : process_candidate fuel fname lookup mp ft fn tgt st b with
      | none => rw [h1] at h; exact absurd h (by simp)
      | some st1 =>
          rw [h1] at h
          simp only [] at h
          obtain ⟨hbs1, _, _, hstep⟩ := process_candidate_cases h1
          obtain ⟨hbs2, hrest⟩ := ih h (fun b' hb' => by
            rw [hbs1]; exact hmem b' (List.mem_cons_of_mem _ hb'))
          have hb : b ∈ st.boundaries := hmem b (List.mem_cons_self _ _)
          refine ⟨by rw [hbs2, hbs1], fun f hf => ?_⟩
          rcases hrest f hf with hin1 | hchain
          · rcases hstep f hin1 with hin0 | ⟨anc, hw, hshape⟩
            · exact .inl hin0
            · refine .inr ⟨b, hb, ?_⟩
              rcases hshape with rfl | ⟨g, _, rfl, hgc⟩
              · exact ⟨rfl, anc, isAncestorChain_of_ancestorsAux hw, rfl⟩
              · exact ⟨hgc, anc, isAncestorChain_of_ancestorsAux hw, rfl⟩
          · rw [hbs1] at hchain
            exact .inr hchain

/-- C8: every facility row that a `create_health_facility` call stores or
overwrites carries, in `parent_code`, the comma-joined ancestor chain
walked upward from its boundary's parent link (root code excluded), and
its `boundary_code` is the code of a stored boundary. -/
theorem C8_parent_chain_recomputed (fuel : Nat) (name mapping ft : String)
    (fn : Option String) (tgt : Int) (st st' : DB)
    (h : create_health_facility fuel name mapping ft fn tgt st = some st') :
    ∀ f ∈ st'.facilities, f ∉ st.facilities →
      ∃ b ∈ st.boundaries, f.boundary_code = some b.code ∧
        ∃ l, IsAncestorChain st.boundaries b.parent_code l ∧
          f.parent_code = some (joinComma l) := by
  unfold create_health_facility at h
  by_cases hc : (facility_matches st.boundaries (stripStr name) ft).isEmpty
  · rw [if_pos hc] at h
    simp only [Option.some.injEq] at h
    subst h
    intro f hf hnf
    exact absurd hf hnf
  · rw [if_neg hc] at h
    obtain ⟨_, hfac⟩ := process_candidates_cases h
      (fun b hb => mem_of_mem_facility_matches hb)
    intro f hf hnf
    rcases hfac f hf with hin | hchain
    · exact absurd hin hnf
    · exact hchain

/-- Witness for C8: the row inserted for candidate `b4a` carries the chain
`[BOUNDARY_2_CODE]` joined with commas. -/
theorem C8_parent_chain_recomputed_witness :
    ∃ b ∈ c6St.boundaries, c8fW.boundary_code = some b.code ∧
      ∃ l, IsAncestorChain c6St.boundaries b.parent_code l ∧
        c8fW.parent_code = some (joinComma l) :=
  C8_parent_chain_recomputed 4 "Twin" "M" "Health Facility" (some "ff") 7 c6St c8res
    (by decide) c8fW (by decide) (by decide)

/-! ## Claim C1 -/

lemma sameSkeleton_refl (b : Boundary) : sameSkeleton b b :=
  ⟨rfl, rfl, rfl, rfl, rfl⟩

lemma sameSkeleton_trans {a b c : Boundary} (h1 : sameSkeleton a b)
    (h2 : sameSkeleton b c) : sameSkeleton a c :=
  ⟨h1.1.trans h2.1, h1.2.1.trans h2.2.1, h1.2.2.1.trans h2.2.2.1,
   h1.2.2.2.1.trans h2.2.2.2.1, h1.2.2.2.2.trans h2.2.2.2.2⟩

lemma setTarget_skeleton (b : Boundary) (i : Nat) (v : Option Int) :
    sameSkeleton (b.setTarget i v) b := by
  unfold Boundary.setTarget
  split <;> exact sameSkeleton_refl _

lemma setTotal_skeleton (b : Boundary) (i : Nat) (v : Option Int) :
    sameSkeleton (b.setTotal i v) b := by
  unfold Boundary.setTotal
  split <;> exact sameSkeleton_refl _

lemma zero_fold_skeleton : ∀ (l : List Nat) (b : Boundary),
    sameSkeleton (l.foldl (fun b i => (b.setTarget i (some 0)).setTotal i (some 0)) b) b
  | [], _ => sameSkeleton_refl _
  | i :: l, b => by
      have ih := zero_fold_skeleton l ((b.setTarget i (some 0)).setTotal i (some 0))
      exact sameSkeleton_trans ih
        (sameSkeleton_trans (setTotal_skeleton _ _ _) (setTarget_skeleton _ _ _))

lemma set_fold_skeleton : ∀ (tg : List (String × Option Int)) (b : Boundary),
    sameSkeleton (tg.foldl (fun b tv =>
      ((b.setTarget (targetIndexOf tv.1) tv.2).setTotal (targetIndexOf tv.1) tv.2)) b) b
  | [], _ => sameSkeleton_refl _
  | tv :: tg, b => by
      have ih := set_fold_skeleton tg
        ((b.setTarget (targetIndexOf tv.1) tv.2).setTotal (targetIndexOf tv.1) tv.2)
      exact sameSkeleton_trans ih
        (sameSkeleton_trans (setTotal_skeleton _ _ _) (setTarget_skeleton _ _ _))

lemma touch_targets_skeleton (b : Boundary) (tg : List (String × Option Int)) :
    sameSkeleton (touch_targets b tg) b := by
  unfold touch_targets
  split
  · split
    · exact zero_fold_skeleton _ _
    · exact sameSkeleton_trans (set_fold_skeleton _ _) (zero_fold_skeleton _ _)
  · exact sameSkeleton_refl _

/-- The filename step of the found-branch of `upsert_boundary` changes no
identity column. -/
lemma filename_step_skeleton (b0 : Boundary) (fn : Option String) :
    sameSkeleton (match fn with
      | some f => { b0 with filename := some f }
      | none => b0) b0 := by
  cases fn <;> exact sameSkeleton_refl _

lemma replaceByCode_length (bs : List Boundary) (code : String) (nb : Boundary) :
    (replaceByCode bs code nb).length = bs.length := by
  unfold replaceByCode
  exact List.length_map _ _

lemma replaceByCode_codes (bs : List Boundary) (code : String) (nb : Boundary)
    (h : nb.code = code) :
    (replaceByCode bs code nb).map (·.code) = bs.map (·.code) := by
  unfold replaceByCode
  rw [List.map_map]
  refine List.map_congr_left ?_
  intro x _
  simp only [Function.comp_apply]
  by_cases hx : x.code = code
  · rw [if_pos (by simp [hx])]
    rw [h, hx]
  · rw [if_neg (by simp [hx])]

/-- C1 (amended): re-ingesting the same input set yields identical entity
counts and identical codes, but the facility mechanism differs from the
claim.  For every Boundary, the second run's `upsert_boundary` lookup hits
the `(name, boundary_type, parent_code)` triple and reuses the stored
code, changing neither the row count nor any code.  For every Facility
whose `(facility_name, boundary_code)` key is already stored, the second
run's upsert finds and overwrites the stored row only when that row's
`administrative_area` equals the candidate's parent boundary name; when it
does not (the insert path stored the raw mapping text), the existence
check misses, the duplicate insert violates the primary key, and the
caught failure rolls back, logging one error — so in either case no
duplicate is created and counts and codes are identical, but the
claimed find-and-overwrite does not happen in the mismatch case. -/
theorem C1_amended_reingestion_mechanism :
    (∀ st bname enum prev btype fn tg b0,
       boundary_query st.boundaries bname prev btype = some b0 →
       (upsert_boundary bname enum prev btype fn tg st).2.code = b0.code ∧
       (upsert_boundary bname enum prev btype fn tg st).1.boundaries.length
           = st.boundaries.length ∧
       (upsert_boundary bname enum prev btype fn tg st).1.boundaries.map (·.code)
           = st.boundaries.map (·.code)) ∧
    (∀ fuel name mapping ft fn tgt st b st' f0,
       facility_matches st.boundaries (stripStr name) ft = [b] →
       f0 ∈ st.facilities → f0.facility_name = stripStr name →
       f0.boundary_code = some b.code →
       create_health_facility fuel name mapping ft fn tgt st = some st' →
       st'.facilities.length = st.facilities.length ∧
       (find_existing_facility st (stripStr name) b.code (parent_name_of st.boundaries b)
           = none →
         st'.facilities = st.facilities ∧ st'.errors = st.errors + 1) ∧
       (∀ f1, find_existing_facility st (stripStr name) b.code
           (parent_name_of st.boundaries b) = some f1 →
         ∃ anc, ancestorsAux st.boundaries fuel b.parent_code = some anc ∧
           st'.facilities = replaceFacility st.facilities f1
             (facility_update_row f1 ft fn tgt anc) ∧ st'.errors = st.errors)) := by
  constructor
  · intro st bn en pv bt fn tg b0 h
    unfold upsert_boundary
    rw [h]
    simp only []
    have hsk := sameSkeleton_trans
      (touch_targets_skeleton (match fn with
        | some f => { b0 with filename := some f }
        | none => b0) tg)
      (filename_step_skeleton b0 fn)
    refine ⟨hsk.1, replaceByCode_length _ _ _, replaceByCode_codes _ _ _ hsk.1⟩
  · intro fuel name mapping ft fn tgt st b st' f0 hm hf0 hf0n hf0c h
    unfold create_health_facility at h
    simp only [hm, List.isEmpty_cons, Bool.false_eq_true, if_false] at h
    unfold process_candidates at h
    cases h1 : process_candidate fuel name (stripStr name) mapping ft fn tgt st b with
    | none => rw [h1] at h; cases h
    | some st1 =>
        rw [h1] at h
        simp only [] at h
        unfold process_candidates at h
        simp only [Option.some.injEq] at h
        subst h
        unfold process_candidate at h1
        cases hw : ancestorsAux st.boundaries fuel b.parent_code with
        | none => rw [hw] at h1; cases h1
        | some anc =>
            rw [hw] at h1
            simp only [] at h1
            cases hf : find_existing_facility st (stripStr name) b.code
                (parent_name_of st.boundaries b) with
            | none =>
                rw [hf] at h1
                simp only [Option.some.injEq] at h1
                have hany : st.facilities.any (fun g =>
                    g.facility_name == (facility_insert_row name mapping ft fn tgt b
                      anc).facility_name &&
                    g.boundary_code == (facility_insert_row name mapping ft fn tgt b
                      anc).boundary_code) = true := by
                  refine List.any_eq_true.mpr ⟨f0, hf0, ?_⟩
                  simp [facility_insert_row, hf0n, hf0c]
                rw [← h1]
                unfold commitInsertFacility
                rw [if_pos hany]
                exact ⟨rfl, fun _ => ⟨rfl, rfl⟩, fun f1 hf1 => Option.noConfusion hf1⟩
            | some f1 =>
                rw [hf] at h1
                simp only [Option.some.injEq] at h1
                rw [← h1]
                refine ⟨?_, ?_, ?_⟩
                · unfold replaceFacility
                  simp [List.length_map]
                · intro hnone
                  exact Option.noConfusion hnone
                · intro f1' hf1'
                  injection hf1' with hEq
                  subst hEq
                  exact ⟨anc, rfl, rfl, rfl⟩

/-- Witness for C1 at concrete inputs: the boundary lookup hits and reuses
the code, and a facility call against a store already holding the primary
key (with mismatching administrative area) leaves the store's facilities
unchanged and logs one error. -/
theorem C1_amended_reingestion_mechanism_witness :
    ((upsert_boundary "N" "BOUNDARY_7" "p" "Aldeia" (some "bf") c4T c4St).2.code
        = c4B.code ∧
      (upsert_boundary "N" "BOUNDARY_7" "p" "Aldeia" (some "bf") c4T c4St).1.boundaries.length
        = c4St.boundaries.length ∧
      (upsert_boundary "N" "BOUNDARY_7" "p" "Aldeia" (some "bf") c4T c4St).1.boundaries.map
        (·.code) = c4St.boundaries.map (·.code)) ∧
    (c1Wres.facilities.length = c1WSt.facilities.length ∧
      (find_existing_facility c1WSt (stripStr "Twin") b4a.code
          (parent_name_of c1WSt.boundaries b4a) = none →
        c1Wres.facilities = c1WSt.facilities ∧ c1Wres.errors = c1WSt.errors + 1)) := by
  constructor
  · exact C1_amended_reingestion_mechanism.1 c4St "N" "BOUNDARY_7" "p" "Aldeia"
      (some "bf") c4T c4B (by decide)
  · have h := C1_amended_reingestion_mechanism.2 4 "Twin" "M" "Health Facility"
      (some "ff") 0 c1WSt b4a c1Wres c1Wf0 (by decide) (by decide) (by decide)
      (by decide) (by decide)
    exact ⟨h.1, h.2.1⟩

/-- C1 as stated is false on a concrete double ingestion: the second run
leaves counts and codes identical, but its facility upsert does not find
the stored `(facility_name, boundary_code)` record — the existence query
additionally filters on `administrative_area == parent name` while the
insert stored the raw mapping text — so the run re-attempts the insert,
which fails the primary key and is rolled back (one error logged) instead
of overwriting. -/
theorem C1_counterexample :
    run_transform [exBFile] [exFFile] DB.empty = some c1st1 ∧
    run_transform [exBFile] [exFFile] c1st1 = some c1st2 ∧
    c1st2.boundaries.map (·.code) = c1st1.boundaries.map (·.code) ∧
    c1st2.facilities = c1st1.facilities ∧
    c1st2.boundaries.length = c1st1.boundaries.length ∧
    c1st2.facilities.length = c1st1.facilities.length ∧
    c1st2.errors = c1st1.errors + 1 ∧
    c1st1.facilities.any (fun f => f.facility_name == "Fac1" &&
      f.boundary_code == some "gI") = true ∧
    (lookupByCode c1st1.boundaries "gI").map
      (fun b => find_existing_facility c1st1 "Fac1" b.code
        (parent_name_of c1st1.boundaries b)) = some none := by
  refine ⟨by decide, by decide, by decide, by decide, by decide, by decide, by decide,
    by decide, by decide⟩

/-! ## Claim C3 -/

lemma boundary_query_props {bs : List Boundary} {bn pv bt : String} {b0 : Boundary}
    (h : boundary_query bs bn pv bt = some b0) :
    b0 ∈ bs ∧ lowerStr b0.name = lowerStr (stripStr bn) ∧
    b0.parent_code = some pv ∧ b0.boundary_type = bt := by
  unfold boundary_query at h
  have hm := List.mem_of_find?_eq_some h
  have hp := List.find?_some h
  simp only [Bool.and_eq_true, beq_iff_eq] at hp
  exact ⟨hm, hp.1.1, hp.1.2, hp.2⟩

/-- Every boundary present after an `upsert_boundary` call either was
already stored or carries the call's `boundary_type`. -/
lemma upsert_boundary_members (bn en pv bt : String) (fn : Option String)
    (tg : List (String × Option Int)) (st : DB) :
    ∀ x ∈ (upsert_boundary bn en pv bt fn tg st).1.boundaries,
      x ∈ st.boundaries ∨ x.boundary_type = bt := by
  unfold upsert_boundary
  cases h : boundary_query st.boundaries bn pv bt with
  | none =>
      intro x hx
      simp only [genShortCode] at hx
      rcases List.mem_append.mp hx with hold | hnew
      · exact .inl hold
      · right
        have := List.mem_singleton.mp hnew
        subst this
        exact (touch_targets_skeleton _ _).2.2.1
  | some b0 =>
      intro x hx
      simp only [replaceByCode] at hx
      obtain ⟨g, hg, hge⟩ := List.mem_map.mp hx
      by_cases hc : (g.code == b0.code) = true
      · rw [if_pos hc] at hge
        subst hge
        right
        cases fn with
        | none =>
            rw [(touch_targets_skeleton b0 tg).2.2.1]
            exact (boundary_query_props h).2.2.2
        | some f =>
            rw [(touch_targets_skeleton { b0 with filename := some f } tg).2.2.1]
            exact (boundary_query_props h).2.2.2
      · rw [if_neg hc] at hge
        exact .inl (hge ▸ hg)

/-- Whether the hierarchy loop processes configuration entry `e` on this
row: the entry sits at level 3 or deeper, has a column, and the row's cell
in that column is non-empty. -/
def rowProcesses (row : BRow) (e : LevelInfo) : Prop :=
  3 ≤ e.level ∧ ∃ c, e.column = some c ∧ (row.cells c).isSome

lemma process_level_cases {fname : String} {tg : List (String × Option Int)}
    {st : DB} {bmap : BMap} {row : BRow} {e : LevelInfo} {st' : DB} {bmap' : BMap}
    (h : process_level fname tg st bmap row e = some (st', bmap')) :
    (∀ x ∈ st'.boundaries, x ∈ st.boundaries ∨
      (rowProcesses row e ∧ x.boundary_type = e.name)) ∧
    (∀ k, k ≠ e.key → bmap' k = bmap k) ∧
    (¬rowProcesses row e → st' = st ∧ bmap' = bmap) := by
  unfold process_level at h
  by_cases hl : e.level ≥ 3
  · rw [if_pos hl] at h
    cases hcol : e.column with
    | none =>
        rw [hcol] at h
        simp only [Option.some.injEq, Prod.mk.injEq] at h
        obtain ⟨rfl, rfl⟩ := h
        exact ⟨fun x hx => .inl hx, fun _ _ => rfl, fun _ => ⟨rfl, rfl⟩⟩
    | some col =>
        rw [hcol] at h
        simp only [] at h
        cases hcell : row.cells col with
        | none =>
            rw [hcell] at h
            simp only [Option.some.injEq, Prod.mk.injEq] at h
            obtain ⟨rfl, rfl⟩ := h
            exact ⟨fun x hx => .inl hx, fun _ _ => rfl, fun _ => ⟨rfl, rfl⟩⟩
        | some v =>
            rw [hcell] at h
            cases hprev : bmap (get_boundary_name (e.level - 1)) with
            | none => rw [hprev] at h; cases h
            | some prev_code =>
                rw [hprev] at h
                simp only [Option.some.injEq, Prod.mk.injEq] at h
                obtain ⟨rfl, rfl⟩ := h
                have hproc : rowProcesses row e :=
                  ⟨hl, col, hcol, by rw [hcell]; rfl⟩
                refine ⟨?_, ?_, ?_⟩
                · intro x hx
                  rcases upsert_boundary_members v e.key prev_code e.name
                      (some fname) tg st x hx with hold | hbt
                  · exact .inl hold
                  · exact .inr ⟨hproc, hbt⟩
                · intro k hk
                  unfold BMap.set
                  simp [hk]
                · intro hnp
                  exact absurd hproc hnp
  · rw [if_neg hl] at h
    simp only [Option.some.injEq, Prod.mk.injEq] at h
    obtain ⟨rfl, rfl⟩ := h
    exact ⟨fun x hx => .inl hx, fun _ _ => rfl, fun _ => ⟨rfl, rfl⟩⟩

lemma process_levels_cases {fname : String} {tg : List (String × Option Int)}
    {row : BRow} :
    ∀ (L : List LevelInfo) (st : DB) (bmap : BMap) (st' : DB) (bmap' : BMap),
      process_levels fname tg row L (st, bmap) = some (st', bmap') →
      (∀ x ∈ st'.boundaries, x ∈ st.boundaries ∨
        ∃ e ∈ L, rowProcesses row e ∧ x.boundary_type = e.name) ∧
      (∀ k, (∀ e ∈ L, e.key = k → ¬rowProcesses row e) → bmap' k = bmap k)
  | [], st, bmap, st', bmap', h => by
      unfold process_levels at h
      simp only [Option.some.injEq, Prod.mk.injEq] at h
      obtain ⟨rfl, rfl⟩ := h
      exact ⟨fun x hx => .inl hx, fun _ _ => rfl⟩
  | e :: L, st, bmap, st', bmap', h => by
      unfold process_levels at h
      cases h1 : process_level fname tg st bmap row e with
      | none => rw [h1] at h; cases h
      | some stb =>
          rw [h1] at h
          simp only [] at h
          obtain ⟨hmem1, hkey1, _⟩ := process_level_cases h1
          obtain ⟨hmem2, hkey2⟩ := process_levels_cases L stb.1 stb.2 st' bmap'
            (by rw [← h])
          refine ⟨?_, ?_⟩
          · intro x hx
            rcases hmem2 x hx with h2 | ⟨e', he', hp', ht'⟩
            · rcases hmem1 x h2 with h0 | ⟨hp, ht⟩
              · exact .inl h0
              · exact .inr ⟨e, List.mem_cons_self _ _, hp, ht⟩
            · exact .inr ⟨e', List.mem_cons_of_mem _ he', hp', ht'⟩
          · intro k hk
            have hstep : stb.2 k = bmap k := by
              by_cases hke : k = e.key
              · rcases (process_level_cases h1).2.2
                  (hk e (List.mem_cons_self _ _) hke.symm) with ⟨_, hbm⟩
                rw [hbm]
              · exact hkey1 k hke
            rw [hkey2 k (fun e' he' hke' => hk e' (List.mem_cons_of_mem _ he') hke'),
              hstep]

/-- C3 (amended): a row with an empty cell at hierarchy level L creates no
Boundary at level L (every boundary the row adds belongs to a level whose
cell is non-empty on this row), and it leaves the `boundaries` dict entry
for level L untouched — so deeper levels of this row, which are still
processed, take their parent from the most recent resolution of the
preceding level, possibly made on an earlier row (carryover) rather than
from this row's own cells. -/
theorem C3_amended_carryover (fname : String) (st : DB) (bmap : BMap) (row : BRow)
    (st' : DB) (bmap' : BMap)
    (h : process_brow fname st bmap row = some (st', bmap')) :
    (∀ x ∈ st'.boundaries, x ∈ st.boundaries ∨
      ∃ e ∈ BOUNDARIES, rowProcesses row e ∧ x.boundary_type = e.name) ∧
    (∀ e ∈ BOUNDARIES, (∀ c, e.column = some c → row.cells c = none) →
      bmap' e.key = bmap e.key) := by
  unfold process_brow at h
  obtain ⟨hmem, hkey⟩ := process_levels_cases BOUNDARIES st bmap st' bmap' h
  refine ⟨hmem, ?_⟩
  intro e he hempty
  refine hkey e.key ?_
  intro e' he' hke'
  have huniq : ∀ a ∈ BOUNDARIES, ∀ b ∈ BOUNDARIES, a.key = b.key → a = b := by decide
  have : e' = e := huniq e' he' e he hke'
  subst this
  rintro ⟨_, c, hc, hcell⟩
  rw [hempty c hc] at hcell
  exact Bool.noConfusion hcell

/-- Witness for C3 at the carryover row: the empty level-3 cell leaves the
dict's district entry untouched. -/
theorem C3_amended_carryover_witness :
    c3Wres.2 "BOUNDARY_3" = c3Wbmap "BOUNDARY_3" :=
  (C3_amended_carryover "bf" c3Wst c3Wbmap c3Row2 c3Wres.1 c3Wres.2 rfl).2
    { key := "BOUNDARY_3", name := "Distrito", level := 3, column := some "C" }
    (by decide)
    (fun c hc => by injection hc with hce; subst hce; rfl)

/-- C3 as stated is false: on the second row the level-3 cell is empty,
yet a level-4 boundary "Z" is created from that row, and its parent is the
level-3 boundary "X" resolved on the first row (processing the first row
alone stores no "Z"). -/
theorem C3_counterexample :
    run_transform [c3BFile] [] DB.empty = some c3st ∧
    c3Row2.cells "C" = none ∧ (c3Row2.cells "D").isSome = true ∧
    c3st.boundaries.filterMap (fun b =>
      if b.name == "Z" then some (b.boundary_level, b.parent_code) else none)
        = [(4, some "g")] ∧
    c3st.boundaries.filterMap (fun b =>
      if b.name == "X" then some (b.boundary_level, b.code) else none)
        = [(3, "g")] ∧
    run_transform [c3BFile1] [] DB.empty = some c3st1 ∧
    c3st1.boundaries.all (fun b => b.name != "Z") = true := by
  refine ⟨by decide, rfl, rfl, by decide, by decide, by decide, by decide⟩

/-! ## Claim C9 -/

lemma upsert_boundary_facilities (bn en pv bt : String) (fn : Option String)
    (tg : List (String × Option Int)) (st : DB) :
    (upsert_boundary bn en pv bt fn tg st).1.facilities = st.facilities := by
  unfold upsert_boundary
  cases h : boundary_query st.boundaries bn pv bt <;> rfl

lemma upsert_boundary_2_facilities (sn sc bn : String) (fn : Option String) (st : DB) :
    (upsert_boundary_2 sn sc bn fn st).1.facilities = st.facilities := by
  unfold upsert_boundary_2
  cases hq : boundary2_query st.boundaries sn sc (boundary_type_of bn) <;>
    simp only [hq] <;> cases fn <;> simp only [] <;> first | rfl | (split <;> rfl)

/-- The hierarchy-loop body either leaves the store alone or performs one
boundary upsert. -/
lemma process_level_state {fname : String} {tg : List (String × Option Int)}
    {st : DB} {bmap : BMap} {row : BRow} {e : LevelInfo} {st' : DB} {bmap' : BMap}
    (h : process_level fname tg st bmap row e = some (st', bmap')) :
    (st' = st ∧ bmap' = bmap) ∨ ∃ v prev_code,
      3 ≤ e.level ∧
      st' = (upsert_boundary v e.key prev_code e.name (some fname) tg st).1 ∧
      bmap' = bmap.set e.key
        (upsert_boundary v e.key prev_code e.name (some fname) tg st).2.code ∧
      bmap (get_boundary_name (e.level - 1)) = some prev_code := by
  unfold process_level at h
  by_cases hl : e.level ≥ 3
  · rw [if_pos hl] at h
    cases hcol : e.column with
    | none =>
        rw [hcol] at h
        simp only [Option.some.injEq, Prod.mk.injEq] at h
        exact .inl ⟨h.1.symm, h.2.symm⟩
    | some col =>
        rw [hcol] at h
        simp only [] at h
        cases hcell : row.cells col with
        | none =>
            rw [hcell] at h
            simp only [Option.some.injEq, Prod.mk.injEq] at h
            exact .inl ⟨h.1.symm, h.2.symm⟩
        | some v =>
            rw [hcell] at h
            cases hprev : bmap (get_boundary_name (e.level - 1)) with
            | none => rw [hprev] at h; cases h
            | some pc =>
                rw [hprev] at h
                simp only [Option.some.injEq, Prod.mk.injEq] at h
                exact .inr ⟨v, pc, hl, h.1.symm, h.2.symm, rfl⟩
  · rw [if_neg hl] at h
    simp only [Option.some.injEq, Prod.mk.injEq] at h
    exact .inl ⟨h.1.symm, h.2.symm⟩

lemma process_level_facilities {fname : String} {tg : List (String × Option Int)}
    {st : DB} {bmap : BMap} {row : BRow} {e : LevelInfo} {st' : DB} {bmap' : BMap}
    (h : process_level fname tg st bmap row e = some (st', bmap')) :
    st'.facilities = st.facilities := by
  rcases process_level_state h with ⟨rfl, _⟩ | ⟨v, pc, _, rfl, _, _⟩
  · rfl
  · exact upsert_boundary_facilities _ _ _ _ _ _ _

lemma process_levels_facilities {fname : String} {tg : List (String × Option Int)}
    {row : BRow} :
    ∀ {L : List LevelInfo} {st : DB} {bmap : BMap} {st' : DB} {bmap' : BMap},
      process_levels fname tg row L (st, bmap) = some (st', bmap') →
      st'.facilities = st.facilities := by
  intro L
  induction L with
  | nil =>
      intro st bmap st' bmap' h
      unfold process_levels at h
      simp only [Option.some.injEq, Prod.mk.injEq] at h
      rw [← h.1]
  | cons e L ih =>
      intro st bmap st' bmap' h
      unfold process_levels at h
      cases h1 : process_level fname tg st bmap row e with
      | none => rw [h1] at h; cases h
      | some stb =>
          rw [h1] at h
          simp only [] at h
          rw [ih (by rw [← h]), process_level_facilities h1]

lemma process_brows_facilities {fname : String} :
    ∀ {R : List BRow} {st : DB} {bmap : BMap} {st' : DB} {bmap' : BMap},
      process_brows fname R (st, bmap) = some (st', bmap') →
      st'.facilities = st.facilities := by
  intro R
  induction R with
  | nil =>
      intro st bmap st' bmap' h
      unfold process_brows at h
      simp only [Option.some.injEq, Prod.mk.injEq] at h
      rw [← h.1]
  | cons row R ih =>
      intro st bmap st' bmap' h
      unfold process_brows at h
      cases h1 : process_brow fname st bmap row with
      | none => rw [h1] at h; cases h
      | some stb =>
          rw [h1] at h
          simp only [] at h
          have h2 : process_brows fname R (stb.1, stb.2) = some (st', bmap') := by
            rw [← h]
          rw [ih h2, process_levels_facilities h1]

lemma process_bsheets_facilities {fname : String} :
    ∀ {S : List BSheet} {st : DB} {bmap : BMap} {st' : DB} {bmap' : BMap},
      process_bsheets fname S (st, bmap) = some (st', bmap') →
      st'.facilities = st.facilities := by
  intro S
  induction S with
  | nil =>
      intro st bmap st' bmap' h
      unfold process_bsheets at h
      simp only [Option.some.injEq, Prod.mk.injEq] at h
      rw [← h.1]
  | cons ws S ih =>
      intro st bmap st' bmap' h
      unfold process_bsheets at h
      by_cases hv : ws.visible
      · rw [if_pos hv] at h
        cases h1 : process_brows fname ws.rows (st, bmap) with
        | none => rw [h1] at h; cases h
        | some stb =>
            rw [h1] at h
            simp only [] at h
            have h2 : process_bsheets fname S (stb.1, stb.2) = some (st', bmap') := by
              rw [← h]
            rw [ih h2, process_brows_facilities h1]
      · rw [if_neg hv] at h
        exact ih h

lemma process_bfiles_facilities :
    ∀ {F : List BFile} {st : DB} {bmap : BMap} {st' : DB} {bmap' : BMap},
      process_bfiles F (st, bmap) = some (st', bmap') →
      st'.facilities = st.facilities := by
  intro F
  induction F with
  | nil =>
      intro st bmap st' bmap' h
      unfold process_bfiles at h
      simp only [Option.some.injEq, Prod.mk.injEq] at h
      rw [← h.1]
  | cons f F ih =>
      intro st bmap st' bmap' h
      unfold process_bfiles at h
      unfold process_bfile at h
      simp only [] at h
      cases h1 : process_bsheets f.path f.sheets
          ((upsert_boundary_2 BOUNDARY_2_NAME BOUNDARY_2_CODE "BOUNDARY_2"
            (some f.path) st).1,
           bmap.set "BOUNDARY_2"
             (upsert_boundary_2 BOUNDARY_2_NAME BOUNDARY_2_CODE "BOUNDARY_2"
               (some f.path) st).2.code) with
      | none => rw [h1] at h; cases h
      | some stb =>
          rw [h1] at h
          simp only [] at h
          have h2 : process_bfiles F (stb.1, stb.2) = some (st', bmap') := by
            rw [← h]
          rw [ih h2, process_bsheets_facilities h1,
            upsert_boundary_2_facilities]

/-- One candidate-loop iteration with the pipeline's constants preserves
the facility-field invariant. -/
lemma process_candidates_facinv {fuel : Nat} {name lookup mp : String}
    {fn : Option String} :
    ∀ {cands : List Boundary} {st st' : DB},
      process_candidates fuel name lookup mp "Health Facility" fn 0 cands st = some st' →
      FacInv st → FacInv st' := by
  intro cands
  induction cands with
  | nil =>
      intro st st' h hinv
      unfold process_candidates at h
      simp only [Option.some.injEq] at h
      subst h
      exact hinv
  | cons b rest ih =>
      intro st st' h hinv
      unfold process_candidates at h
      cases h1 : process_candidate fuel name lookup mp "Health Facility" fn 0 st b with
      | none => rw [h1] at h; cases h
      | some st1 =>
          rw [h1] at h
          simp only [] at h
          have hinv1 : FacInv st1 := by
            intro f hf
            rcases (process_candidate_cases h1).2.2.2 f hf with hin | ⟨anc, _, hshape⟩
            · exact hinv f hin
            · rcases hshape with rfl | ⟨g, hg, rfl, _⟩
              · exact ⟨rfl, rfl, rfl, rfl⟩
              · exact ⟨rfl, rfl, (hinv g hg).2.2.1, (hinv g hg).2.2.2⟩
          exact ih h hinv1

/-- A facility call made with the pipeline's constants preserves the
facility-field invariant. -/
lemma create_health_facility_facinv {fuel : Nat} {name mapping : String}
    {fn : Option String} {st st' : DB}
    (h : create_health_facility fuel name mapping "Health Facility" fn 0 st = some st')
    (hinv : FacInv st) : FacInv st' := by
  unfold create_health_facility at h
  simp only [] at h
  by_cases hc : (facility_matches st.boundaries (stripStr name) "Health Facility").isEmpty
  · rw [if_pos hc] at h
    simp only [Option.some.injEq] at h
    subst h
    exact hinv
  · rw [if_neg hc] at h
    exact process_candidates_facinv h hinv

lemma process_frows_facinv {fname : String} :
    ∀ {R : List FRow} {st st' : DB},
      process_frows fname R st = some st' → FacInv st → FacInv st' := by
  intro R
  induction R with
  | nil =>
      intro st st' h hinv
      unfold process_frows at h
      simp only [Option.some.injEq] at h
      subst h
      exact hinv
  | cons row R ih =>
      intro st st' h hinv
      unfold process_frows at h
      cases h1 : process_frow fname st row with
      | none => rw [h1] at h; cases h
      | some st1 =>
          rw [h1] at h
          simp only [] at h
          refine ih h ?_
          unfold process_frow at h1
          by_cases hf : (falsyCell row.fac_name || falsyCell row.mapping) = true
          · rw [if_pos hf] at h1
            simp only [Option.some.injEq] at h1
            subst h1
            exact hinv
          · rw [if_neg hf] at h1
            exact create_health_facility_facinv h1 hinv

lemma process_fsheets_facinv {fname : String} :
    ∀ {S : List FSheet} {st st' : DB},
      process_fsheets fname S st = some st' → FacInv st → FacInv st' := by
  intro S
  induction S with
  | nil =>
      intro st st' h hinv
      unfold process_fsheets at h
      simp only [Option.some.injEq] at h
      subst h
      exact hinv
  | cons ws S ih =>
      intro st st' h hinv
      unfold process_fsheets at h
      by_cases hv : ws.visible
      · rw [if_pos hv] at h
        cases h1 : process_frows fname ws.rows st with
        | none => rw [h1] at h; cases h
        | some st1 =>
            rw [h1] at h
            simp only [] at h
            exact ih h (process_frows_facinv h1 hinv)
      · rw [if_neg hv] at h
        exact ih h hinv

lemma process_ffiles_facinv :
    ∀ {F : List FFile} {st st' : DB},
      process_ffiles F st = some st' → FacInv st → FacInv st' := by
  intro F
  induction F with
  | nil =>
      intro st st' h hinv
      unfold process_ffiles at h
      simp only [Option.some.injEq] at h
      subst h
      exact hinv
  | cons f F ih =>
      intro st st' h hinv
      unfold process_ffiles at h
      cases h1 : process_fsheets f.path f.sheets st with
      | none => rw [h1] at h; cases h
      | some st1 =>
          rw [h1] at h
          simp only [] at h
          exact ih h (process_fsheets_facinv h1 hinv)

/-- C9: the facility loop of `run_transform` always calls
`create_health_facility` with `facility_type="Health Facility"` and
`target=0`, and the insert path fixes `is_permanent="TRUE"` and
`storage=0`, so after any run from a store whose facilities already
satisfy those constants (in particular the empty store), every stored
facility has `target=0`, `facility_type="Health Facility"`,
`is_permanent="TRUE"` and `storage=0`. -/
theorem C9_pipeline_facility_constants (bfiles : List BFile) (ffiles : List FFile)
    (st0 st' : DB) (hfac : FacInv st0)
    (h : run_transform bfiles ffiles st0 = some st') : FacInv st' := by
  unfold run_transform at h
  cases hb : process_bfiles bfiles (st0, initialBMap) with
  | none => rw [hb] at h; cases h
  | some stb =>
      rw [hb] at h
      simp only [] at h
      have hb' : process_bfiles bfiles (st0, initialBMap) = some (stb.1, stb.2) := by
        rw [hb]
      have hfac1 : FacInv stb.1 := by
        intro f hf
        rw [process_bfiles_facilities hb'] at hf
        exact hfac f hf
      exact process_ffiles_facinv h hfac1

/-- Witness for C9: after the concrete run, every stored facility carries
the pipeline constants. -/
theorem C9_pipeline_facility_constants_witness : FacInv c1st1 :=
  C9_pipeline_facility_constants [exBFile] [exFFile] DB.empty c1st1
    (fun f hf => absurd hf (List.not_mem_nil f)) (by decide)

/-! ## Claim C2 -/

lemma shortCodeOf_inj {a b : Nat} (h : shortCodeOf a = shortCodeOf b) : a = b := by
  unfold shortCodeOf at h
  have hd : ('g' :: List.replicate a 'I') = ('g' :: List.replicate b 'I') :=
    congrArg String.data h
  have ht : List.replicate a 'I' = List.replicate b 'I' := by
    injection hd
  have hlen := congrArg List.length ht
  simpa using hlen

lemma shortCodeOf_ne_b2 (n : Nat) : shortCodeOf n ≠ BOUNDARY_2_CODE := by
  intro h
  have h2 : (shortCodeOf n).data.head? = BOUNDARY_2_CODE.data.head? := by rw [h]
  have h3 : some 'g' = some 'f' := h2
  simp at h3

lemma config_level_of : ∀ e ∈ BOUNDARIES, boundary_level_of e.key = e.level := by decide

lemma config_type_unique :
    ∀ a ∈ BOUNDARIES, ∀ b ∈ BOUNDARIES, a.name = b.name → a.level = b.level := by decide

lemma config_key_unique :
    ∀ a ∈ BOUNDARIES, ∀ b ∈ BOUNDARIES, a.key = b.key → a = b := by decide

lemma config_prev :
    ∀ e ∈ BOUNDARIES, 3 ≤ e.level →
      ∃ e2 ∈ BOUNDARIES, get_boundary_name (e.level - 1) = e2.key ∧
        e2.level + 1 = e.level ∧ 2 ≤ e2.level := by decide

lemma codesLevels_trans {a b c : DB} (h1 : CodesLevels a b) (h2 : CodesLevels b c) :
    CodesLevels a c :=
  fun code lvl hx => h2 code lvl (h1 code lvl hx)

lemma inj_code_of_nodup {bs : List Boundary} (hnd : (bs.map (·.code)).Nodup)
    {a b : Boundary} (ha : a ∈ bs) (hb : b ∈ bs) (he : a.code = b.code) : a = b :=
  List.inj_on_of_nodup_map hnd ha hb he

lemma replaceByCode_mem_of_mem {bs : List Boundary} {b0 b2 : Boundary}
    (hnd : (bs.map (·.code)).Nodup) (hb0 : b0 ∈ bs) (hsk : sameSkeleton b2 b0) :
    ∀ x ∈ bs, ∃ x2 ∈ replaceByCode bs b0.code b2, sameSkeleton x2 x := by
  intro x hx
  by_cases hc : x.code = b0.code
  · have hxe : x = b0 := inj_code_of_nodup hnd hx hb0 hc
    subst hxe
    refine ⟨b2, ?_, hsk⟩
    unfold replaceByCode
    exact List.mem_map.mpr ⟨x, hx, by simp⟩
  · refine ⟨x, ?_, sameSkeleton_refl x⟩
    unfold replaceByCode
    exact List.mem_map.mpr ⟨x, hx, by simp [hc]⟩

lemma replaceByCode_mem_back {bs : List Boundary} {b0 b2 : Boundary}
    (hsk : sameSkeleton b2 b0) (hb0 : b0 ∈ bs) :
    ∀ x2 ∈ replaceByCode bs b0.code b2, ∃ x ∈ bs, sameSkeleton x2 x := by
  intro x2 hx2
  unfold replaceByCode at hx2
  obtain ⟨g, hg, hge⟩ := List.mem_map.mp hx2
  by_cases hc : (g.code == b0.code) = true
  · rw [if_pos hc] at hge
    exact ⟨b0, hb0, hge ▸ hsk⟩
  · rw [if_neg hc] at hge
    exact ⟨g, hg, hge ▸ sameSkeleton_refl g⟩

/-- A committed in-place update that keeps the identity columns preserves
the whole store invariant. -/
lemma storeInv_replace {st : DB} {b0 b2 : Boundary} (hinv : StoreInv st)
    (hb0 : b0 ∈ st.boundaries) (hsk : sameSkeleton b2 b0) :
    StoreInv { st with boundaries := replaceByCode st.boundaries b0.code b2 } ∧
    CodesLevels st { st with boundaries := replaceByCode st.boundaries b0.code b2 } := by
  obtain ⟨htl, hh, hlv, hgs, hnd, hpv⟩ := hinv
  have hfwd := replaceByCode_mem_of_mem hnd hb0 hsk
  have hbk := replaceByCode_mem_back hsk hb0
  have hcl : CodesLevels st
      { st with boundaries := replaceByCode st.boundaries b0.code b2 } := by
    intro c lvl ⟨x, hx, hc, hl⟩
    obtain ⟨x2, hx2, hskx⟩ := hfwd x hx
    exact ⟨x2, hx2, hskx.1.trans hc, hskx.2.2.2.1.trans hl⟩
  refine ⟨⟨?_, ?_, ?_, ?_, ?_, ?_⟩, hcl⟩
  · intro x2 hx2 e he ht
    obtain ⟨x, hx, hskx⟩ := hbk x2 hx2
    rw [hskx.2.2.2.1]
    exact htl x hx e he (hskx.2.2.1 ▸ ht)
  · intro x2 hx2 hgt
    obtain ⟨x, hx, hskx⟩ := hbk x2 hx2
    rw [hskx.2.2.2.1] at hgt
    obtain ⟨p, hp, hpc, hpl⟩ := hh x hx hgt
    obtain ⟨p2, hp2, hskp⟩ := hfwd p hp
    refine ⟨p2, hp2, ?_, ?_⟩
    · rw [hskp.1, hskx.2.2.2.2]
      exact hpc
    · rw [hskp.2.2.2.1, hskx.2.2.2.1]
      exact hpl
  · intro x2 hx2
    obtain ⟨x, hx, hskx⟩ := hbk x2 hx2
    rw [hskx.2.2.2.1]
    exact hlv x hx
  · intro x2 hx2
    obtain ⟨x, hx, hskx⟩ := hbk x2 hx2
    rw [hskx.1]
    exact hgs x hx
  · show ((replaceByCode st.boundaries b0.code b2).map (·.code)).Nodup
    rw [replaceByCode_codes _ _ _ hsk.1]
    exact hnd
  · intro x2 hx2 hc
    obtain ⟨x, hx, hskx⟩ := hbk x2 hx2
    rw [hskx.2.1, hskx.2.2.1]
    exact hpv x hx (hskx.1 ▸ hc)

/-- Appending a fresh, consistent row preserves the store invariant. -/
lemma storeInv_append {st : DB} {nb : Boundary} {g2 : Nat} (hinv : StoreInv st)
    (hg : st.gensym ≤ g2)
    (hfresh : ∀ x ∈ st.boundaries, x.code ≠ nb.code)
    (htl : ∀ e ∈ BOUNDARIES, nb.boundary_type = e.name → nb.boundary_level = e.level)
    (hpar : 2 < nb.boundary_level → ∃ p ∈ st.boundaries,
      some p.code = nb.parent_code ∧ p.boundary_level + 1 = nb.boundary_level)
    (hlev : 2 ≤ nb.boundary_level)
    (hcode : nb.code = BOUNDARY_2_CODE ∨ ∃ k ∈ List.range g2, nb.code = shortCodeOf k)
    (hprov : nb.code = BOUNDARY_2_CODE →
      lowerStr nb.name = lowerStr (stripStr BOUNDARY_2_NAME) ∧
      nb.boundary_type = "Provincia") :
    StoreInv { st with boundaries := st.boundaries ++ [nb], gensym := g2 } ∧
    CodesLevels st { st with boundaries := st.boundaries ++ [nb], gensym := g2 } := by
  obtain ⟨htl0, hh, hlv, hgs, hnd, hpv⟩ := hinv
  have hcl : CodesLevels st { st with boundaries := st.boundaries ++ [nb], gensym := g2 } := by
    intro c lvl ⟨x, hx, hc, hl⟩
    exact ⟨x, List.mem_append_left _ hx, hc, hl⟩
  refine ⟨⟨?_, ?_, ?_, ?_, ?_, ?_⟩, hcl⟩
  · intro x hx e he ht
    rcases List.mem_append.mp hx with hold | hnew
    · exact htl0 x hold e he ht
    · have := List.mem_singleton.mp hnew
      subst this
      exact htl e he ht
  · intro x hx hgt
    rcases List.mem_append.mp hx with hold | hnew
    · obtain ⟨p, hp, hpc, hpl⟩ := hh x hold hgt
      exact ⟨p, List.mem_append_left _ hp, hpc, hpl⟩
    · have := List.mem_singleton.mp hnew
      subst this
      obtain ⟨p, hp, hpc, hpl⟩ := hpar hgt
      exact ⟨p, List.mem_append_left _ hp, hpc, hpl⟩
  · intro x hx
    rcases List.mem_append.mp hx with hold | hnew
    · exact hlv x hold
    · have := List.mem_singleton.mp hnew
      subst this
      exact hlev
  · intro x hx
    rcases List.mem_append.mp hx with hold | hnew
    · rcases hgs x hold with hb2 | ⟨k, hk, hc⟩
      · exact .inl hb2
      · exact .inr ⟨k, List.mem_range.mpr (lt_of_lt_of_le (List.mem_range.mp hk) hg), hc⟩
    · have := List.mem_singleton.mp hnew
      subst this
      exact hcode
  · show (((st.boundaries ++ [nb]).map (·.code))).Nodup
    rw [List.map_append]
    rw [List.nodup_append]
    refine ⟨hnd, List.nodup_singleton _, ?_⟩
    intro c hc hc2
    simp only [List.map, List.mem_singleton] at hc2
    obtain ⟨x, hx, hxc⟩ := List.mem_map.mp hc
    exact hfresh x hx (hxc.trans hc2)
  · intro x hx hc
    rcases List.mem_append.mp hx with hold | hnew
    · exact hpv x hold hc
    · have := List.mem_singleton.mp hnew
      subst this
      exact hprov hc

lemma boundary2_query_props {bs : List Boundary} {sn sc bt : String} {b0 : Boundary}
    (h : boundary2_query bs sn sc bt = some b0) :
    b0 ∈ bs ∧ lowerStr b0.name = lowerStr (stripStr sn) ∧
    b0.code = sc ∧ b0.boundary_type = bt := by
  unfold boundary2_query at h
  have hm := List.mem_of_find?_eq_some h
  have hp := List.find?_some h
  simp only [Bool.and_eq_true, beq_iff_eq] at hp
  exact ⟨hm, hp.1.1, hp.1.2, hp.2⟩

/-- One `upsert_boundary` call made by the hierarchy loop preserves the
store invariant; the boundary it hands back is stored at the entry's
configured level. -/
lemma upsert_boundary_inv {st : DB} {e : LevelInfo} {prev bn : String}
    {fn : Option String} {tg : List (String × Option Int)}
    (he : e ∈ BOUNDARIES) (hl : 3 ≤ e.level) (hinv : StoreInv st)
    (hprev : ∃ p ∈ st.boundaries, p.code = prev ∧ p.boundary_level + 1 = e.level) :
    StoreInv (upsert_boundary bn e.key prev e.name fn tg st).1 ∧
    CodesLevels st (upsert_boundary bn e.key prev e.name fn tg st).1 ∧
    (∃ b2 ∈ (upsert_boundary bn e.key prev e.name fn tg st).1.boundaries,
      b2.code = (upsert_boundary bn e.key prev e.name fn tg st).2.code ∧
      b2.boundary_level = e.level) ∧
    st.gensym ≤ (upsert_boundary bn e.key prev e.name fn tg st).1.gensym := by
  unfold upsert_boundary
  cases hq : boundary_query st.boundaries bn prev e.name with
  | none =>
      simp only [genShortCode]
      set mkNew : Boundary :=
        { name := stripStr bn, name_in_english := stripStr bn,
          code := shortCodeOf st.gensym, boundary_type := e.name,
          boundary_level := boundary_level_of e.key, parent_code := some prev,
          filename := fn } with hmk
      set nb := touch_targets mkNew tg with hnb
      have hsk : sameSkeleton nb mkNew := touch_targets_skeleton mkNew tg
      have hnbcode : nb.code = shortCodeOf st.gensym := hsk.1
      have hnblvl : nb.boundary_level = e.level := by
        rw [hsk.2.2.2.1]
        exact config_level_of e he
      have hfresh : ∀ x ∈ st.boundaries, x.code ≠ nb.code := by
        intro x hx hxc
        rw [hnbcode] at hxc
        rcases hinv.2.2.2.1 x hx with hb2 | ⟨k, hk, hc⟩
        · exact shortCodeOf_ne_b2 st.gensym (hxc ▸ hb2)
        · have : k = st.gensym := shortCodeOf_inj (hc ▸ hxc)
          subst this
          exact absurd (List.mem_range.mp hk) (lt_irrefl _)
      have htl : ∀ e2 ∈ BOUNDARIES, nb.boundary_type = e2.name →
          nb.boundary_level = e2.level := by
        intro e2 he2 ht
        have hteq : e.name = e2.name := by
          rw [← ht, hsk.2.2.1]
        rw [hnblvl]
        exact config_type_unique e he e2 he2 hteq
      have hpar : 2 < nb.boundary_level → ∃ p ∈ st.boundaries,
          some p.code = nb.parent_code ∧ p.boundary_level + 1 = nb.boundary_level := by
        intro _
        obtain ⟨p, hp, hpc, hpl⟩ := hprev
        refine ⟨p, hp, ?_, ?_⟩
        · rw [hsk.2.2.2.2, hpc]
        · rw [hnblvl]
          exact hpl
      have hlev : 2 ≤ nb.boundary_level := by
        rw [hnblvl]
        omega
      have hcode : nb.code = BOUNDARY_2_CODE ∨
          ∃ k ∈ List.range (st.gensym + 1), nb.code = shortCodeOf k :=
        .inr ⟨st.gensym, List.mem_range.mpr (Nat.lt_succ_self _), hnbcode⟩
      have hprov : nb.code = BOUNDARY_2_CODE →
          lowerStr nb.name = lowerStr (stripStr BOUNDARY_2_NAME) ∧
          nb.boundary_type = "Provincia" := by
        intro hc
        rw [hnbcode] at hc
        exact absurd hc (shortCodeOf_ne_b2 st.gensym)
      have happ := storeInv_append hinv (Nat.le_succ st.gensym) hfresh htl hpar hlev
        hcode hprov
      refine ⟨happ.1, happ.2, ⟨nb, ?_, rfl, hnblvl⟩, Nat.le_succ _⟩
      exact List.mem_append_right _ (List.mem_singleton.mpr rfl)
  | some b0 =>
      simp only []
      have hq2 := boundary_query_props hq
      have hb0lvl : b0.boundary_level = e.level := hinv.1 b0 hq2.1 e he hq2.2.2.2
      cases fn with
      | none =>
          have hsk : sameSkeleton (touch_targets b0 tg) b0 := touch_targets_skeleton b0 tg
          have hrep := storeInv_replace hinv hq2.1 hsk
          refine ⟨hrep.1, hrep.2,
            ⟨touch_targets b0 tg, ?_, rfl, hsk.2.2.2.1.trans hb0lvl⟩, le_refl _⟩
          unfold replaceByCode
          exact List.mem_map.mpr ⟨b0, hq2.1, by simp⟩
      | some f =>
          have hsk : sameSkeleton (touch_targets { b0 with filename := some f } tg) b0 :=
            sameSkeleton_trans (touch_targets_skeleton _ tg) ⟨rfl, rfl, rfl, rfl, rfl⟩
          have hrep := storeInv_replace hinv hq2.1 hsk
          refine ⟨hrep.1, hrep.2,
            ⟨touch_targets { b0 with filename := some f } tg, ?_, rfl,
              hsk.2.2.2.1.trans hb0lvl⟩, le_refl _⟩
          unfold replaceByCode
          exact List.mem_map.mpr ⟨b0, hq2.1, by simp⟩

lemma codesLevels_refl (st : DB) : CodesLevels st st := fun _ _ h => h

lemma config_provincia_level :
    ∀ e2 ∈ BOUNDARIES, "Provincia" = e2.name → e2.level = 2 := by decide

lemma provincia_entry_mem :
    ({ key := "BOUNDARY_2", name := "Provincia", level := 2,
       column := some "B" } : LevelInfo) ∈ BOUNDARIES := by decide

/-- The per-file static province upsert preserves the store invariant; the
boundary it hands back is stored at level 2. -/
lemma upsert_boundary_2_inv {st : DB} {fn : Option String} (hinv : StoreInv st) :
    StoreInv (upsert_boundary_2 BOUNDARY_2_NAME BOUNDARY_2_CODE "BOUNDARY_2" fn st).1 ∧
    CodesLevels st (upsert_boundary_2 BOUNDARY_2_NAME BOUNDARY_2_CODE "BOUNDARY_2" fn st).1 ∧
    (∃ b2 ∈ (upsert_boundary_2 BOUNDARY_2_NAME BOUNDARY_2_CODE "BOUNDARY_2" fn
        st).1.boundaries,
      b2.code = (upsert_boundary_2 BOUNDARY_2_NAME BOUNDARY_2_CODE "BOUNDARY_2" fn
        st).2.code ∧
      b2.boundary_level = 2) ∧
    st.gensym ≤ (upsert_boundary_2 BOUNDARY_2_NAME BOUNDARY_2_CODE "BOUNDARY_2" fn
      st).1.gensym := by
  unfold upsert_boundary_2
  simp only []
  cases hq : boundary2_query st.boundaries BOUNDARY_2_NAME BOUNDARY_2_CODE
      (boundary_type_of "BOUNDARY_2") with
  | some b0 =>
      simp only [hq]
      have hq2 := boundary2_query_props hq
      have hb0t : b0.boundary_type = "Provincia" := hq2.2.2.2
      have hb0lvl : b0.boundary_level = 2 := by
        have := hinv.1 b0 hq2.1 _ provincia_entry_mem hb0t
        simpa using this
      cases fn with
      | none =>
          exact ⟨hinv, codesLevels_refl st, ⟨b0, hq2.1, rfl, hb0lvl⟩, le_refl _⟩
      | some f =>
          simp only []
          by_cases hf : (f == "") = true
          · rw [if_pos hf]
            exact ⟨hinv, codesLevels_refl st, ⟨b0, hq2.1, rfl, hb0lvl⟩, le_refl _⟩
          · rw [if_neg hf]
            have hsk : sameSkeleton { b0 with filename := some f } b0 :=
              ⟨rfl, rfl, rfl, rfl, rfl⟩
            have hrep := storeInv_replace hinv hq2.1 hsk
            refine ⟨hrep.1, hrep.2,
              ⟨{ b0 with filename := some f }, ?_, rfl, hb0lvl⟩, le_refl _⟩
            unfold replaceByCode
            exact List.mem_map.mpr ⟨b0, hq2.1, by simp⟩
  | none =>
      simp only [hq]
      set nb : Boundary :=
        { name := stripStr BOUNDARY_2_NAME, name_in_english := stripStr BOUNDARY_2_NAME,
          code := BOUNDARY_2_CODE, boundary_type := boundary_type_of "BOUNDARY_2",
          boundary_level := boundary_level_of "BOUNDARY_2",
          parent_code := some BOUNDARY_1_CODE } with hnb
      have hfresh : ∀ x ∈ st.boundaries, x.code ≠ nb.code := by
        intro x hx hxc
        have hxp := hinv.2.2.2.2.2 x hx hxc
        have hnone := List.find?_eq_none.mp hq x hx
        apply hnone
        simp only [Bool.and_eq_true, beq_iff_eq]
        exact ⟨⟨hxp.1, hxc⟩, hxp.2⟩
      have htl : ∀ e2 ∈ BOUNDARIES, nb.boundary_type = e2.name →
          nb.boundary_level = e2.level := by
        intro e2 he2 ht
        have : e2.level = 2 := config_provincia_level e2 he2 ht
        rw [this]
        rfl
      have hpar : 2 < nb.boundary_level → ∃ p ∈ st.boundaries,
          some p.code = nb.parent_code ∧ p.boundary_level + 1 = nb.boundary_level := by
        intro h
        rw [show nb.boundary_level = 2 from rfl] at h
        exact absurd h (by omega)
      have happ := storeInv_append hinv (le_refl st.gensym) hfresh htl hpar
        (by exact le_refl 2) (.inl rfl) (fun _ => ⟨rfl, rfl⟩)
      have hmem : nb ∈ st.boundaries ++ [nb] :=
        List.mem_append_right _ (List.mem_singleton.mpr rfl)
      cases fn with
      | none =>
          exact ⟨happ.1, happ.2, ⟨nb, hmem, rfl, rfl⟩, le_refl _⟩
      | some f =>
          simp only []
          by_cases hf : (f == "") = true
          · rw [if_pos hf]
            exact ⟨happ.1, happ.2, ⟨nb, hmem, rfl, rfl⟩, le_refl _⟩
          · rw [if_neg hf]
            have hsk : sameSkeleton { nb with filename := some f } nb :=
              ⟨rfl, rfl, rfl, rfl, rfl⟩
            have hrep := storeInv_replace happ.1 hmem hsk
            refine ⟨hrep.1, codesLevels_trans happ.2 hrep.2,
              ⟨{ nb with filename := some f }, ?_, rfl, rfl⟩, le_refl _⟩
            unfold replaceByCode
            exact List.mem_map.mpr ⟨nb, hmem, by simp⟩

/-- One hierarchy-loop iteration preserves the store and dict invariants. -/
lemma process_level_inv {fname : String} {tg : List (String × Option Int)}
    {st : DB} {bmap : BMap} {row : BRow} {e : LevelInfo} {st' : DB} {bmap' : BMap}
    (he : e ∈ BOUNDARIES)
    (h : process_level fname tg st bmap row e = some (st', bmap'))
    (hinv : StoreInv st) (hmap : MapInv st bmap) :
    StoreInv st' ∧ MapInv st' bmap' ∧ st.gensym ≤ st'.gensym := by
  rcases process_level_state h with ⟨rfl, rfl⟩ | ⟨v, pc, hl, hst, hbm, hprev⟩
  · exact ⟨hinv, hmap, le_refl _⟩
  · obtain ⟨e2, he2, hkey, hlvl, hl2⟩ := config_prev e he hl
    rw [hkey] at hprev
    obtain ⟨p, hp, hpcode, hplvl⟩ := hmap e2 he2 hl2 pc hprev
    have hub := @upsert_boundary_inv st e pc v (some fname) tg he hl hinv
      ⟨p, hp, hpcode, by rw [hplvl]; exact hlvl⟩
    subst hst
    subst hbm
    refine ⟨hub.1, ?_, hub.2.2.2⟩
    intro e3 he3 hl3 c hc
    unfold BMap.set at hc
    by_cases hk : (e3.key == e.key) = true
    · rw [if_pos hk] at hc
      have he3e : e3 = e := config_key_unique e3 he3 e he (beq_iff_eq.mp hk)
      subst he3e
      obtain ⟨b2, hb2, hb2c, hb2l⟩ := hub.2.2.1
      simp only [Option.some.injEq] at hc
      exact ⟨b2, hb2, hb2c.trans hc, hb2l⟩
    · rw [if_neg hk] at hc
      exact hub.2.1 c e3.level (hmap e3 he3 hl3 c hc)

lemma process_levels_inv {fname : String} {tg : List (String × Option Int)} {row : BRow} :
    ∀ {L : List LevelInfo}, (∀ e ∈ L, e ∈ BOUNDARIES) →
      ∀ {st : DB} {bmap : BMap} {st' : DB} {bmap' : BMap},
        process_levels fname tg row L (st, bmap) = some (st', bmap') →
        StoreInv st → MapInv st bmap →
        StoreInv st' ∧ MapInv st' bmap' ∧ st.gensym ≤ st'.gensym := by
  intro L
  induction L with
  | nil =>
      intro _ st bmap st' bmap' h hinv hmap
      unfold process_levels at h
      simp only [Option.some.injEq, Prod.mk.injEq] at h
      obtain ⟨rfl, rfl⟩ := h
      exact ⟨hinv, hmap, le_refl _⟩
  | cons e L ih =>
      intro hsub st bmap st' bmap' h hinv hmap
      unfold process_levels at h
      cases h1 : process_level fname tg st bmap row e with
      | none => rw [h1] at h; cases h
      | some stb =>
          rw [h1] at h
          simp only [] at h
          obtain ⟨hinv1, hmap1, hg1⟩ :=
            process_level_inv (hsub e (List.mem_cons_self _ _)) h1 hinv hmap
          obtain ⟨hinv2, hmap2, hg2⟩ :=
            ih (fun e2 he2 => hsub e2 (List.mem_cons_of_mem _ he2)) (by rw [← h])
              hinv1 hmap1
          exact ⟨hinv2, hmap2, le_trans hg1 hg2⟩

lemma process_brow_inv {fname : String} {st : DB} {bmap : BMap} {row : BRow}
    {st' : DB} {bmap' : BMap}
    (h : process_brow fname st bmap row = some (st', bmap'))
    (hinv : StoreInv st) (hmap : MapInv st bmap) :
    StoreInv st' ∧ MapInv st' bmap' ∧ st.gensym ≤ st'.gensym :=
  process_levels_inv (fun _ he => he) h hinv hmap

lemma process_brows_inv {fname : String} :
    ∀ {R : List BRow} {st : DB} {bmap : BMap} {st' : DB} {bmap' : BMap},
      process_brows fname R (st, bmap) = some (st', bmap') →
      StoreInv st → MapInv st bmap →
      StoreInv st' ∧ MapInv st' bmap' := by
  intro R
  induction R with
  | nil =>
      intro st bmap st' bmap' h hinv hmap
      unfold process_brows at h
      simp only [Option.some.injEq, Prod.mk.injEq] at h
      obtain ⟨rfl, rfl⟩ := h
      exact ⟨hinv, hmap⟩
  | cons row R ih =>
      intro st bmap st' bmap' h hinv hmap
      unfold process_brows at h
      cases h1 : process_brow fname st bmap row with
      | none => rw [h1] at h; cases h
      | some stb =>
          rw [h1] at h
          simp only [] at h
          have h1' : process_brow fname st bmap row = some (stb.1, stb.2) := by rw [h1]
          obtain ⟨hinv1, hmap1, _⟩ := process_brow_inv h1' hinv hmap
          exact ih (by rw [← h]) hinv1 hmap1

lemma process_bsheets_inv {fname : String} :
    ∀ {S : List BSheet} {st : DB} {bmap : BMap} {st' : DB} {bmap' : BMap},
      process_bsheets fname S (st, bmap) = some (st', bmap') →
      StoreInv st → MapInv st bmap →
      StoreInv st' ∧ MapInv st' bmap' := by
  intro S
  induction S with
  | nil =>
      intro st bmap st' bmap' h hinv hmap
      unfold process_bsheets at h
      simp only [Option.some.injEq, Prod.mk.injEq] at h
      obtain ⟨rfl, rfl⟩ := h
      exact ⟨hinv, hmap⟩
  | cons ws S ih =>
      intro st bmap st' bmap' h hinv hmap
      unfold process_bsheets at h
      by_cases hv : ws.visible
      · rw [if_pos hv] at h
        cases h1 : process_brows fname ws.rows (st, bmap) with
        | none => rw [h1] at h; cases h
        | some stb =>
            rw [h1] at h
            simp only [] at h
            have h1' : process_brows fname ws.rows (st, bmap) = some (stb.1, stb.2) := by
              rw [h1]
            obtain ⟨hinv1, hmap1⟩ := process_brows_inv h1' hinv hmap
            exact ih (by rw [← h]) hinv1 hmap1
      · rw [if_neg hv] at h
        exact ih h hinv hmap

/-- Whole-file processing preserves the store and dict invariants. -/
lemma process_bfile_inv {f : BFile} {st : DB} {bmap : BMap} {st' : DB} {bmap' : BMap}
    (h : process_bfile f st bmap = some (st', bmap'))
    (hinv : StoreInv st) (hmap : MapInv st bmap) :
    StoreInv st' ∧ MapInv st' bmap' := by
  unfold process_bfile at h
  simp only [] at h
  have hu := @upsert_boundary_2_inv st (some f.path) hinv
  have hmap1 : MapInv
      (upsert_boundary_2 BOUNDARY_2_NAME BOUNDARY_2_CODE "BOUNDARY_2" (some f.path) st).1
      (bmap.set "BOUNDARY_2"
        (upsert_boundary_2 BOUNDARY_2_NAME BOUNDARY_2_CODE "BOUNDARY_2"
          (some f.path) st).2.code) := by
    intro e3 he3 hl3 c hc
    unfold BMap.set at hc
    by_cases hk : (e3.key == "BOUNDARY_2") = true
    · rw [if_pos hk] at hc
      have he3e :
          e3 = { key := "BOUNDARY_2", name := "Provincia", level := 2, column := some "B" } :=
        config_key_unique e3 he3 _ provincia_entry_mem (beq_iff_eq.mp hk)
      subst he3e
      obtain ⟨b2, hb2, hb2c, hb2l⟩ := hu.2.2.1
      simp only [Option.some.injEq] at hc
      exact ⟨b2, hb2, hb2c.trans hc, hb2l⟩
    · rw [if_neg hk] at hc
      exact hu.2.1 c e3.level (hmap e3 he3 hl3 c hc)
  exact process_bsheets_inv h hu.1 hmap1

lemma mapInv_initial (st : DB) : MapInv st initialBMap := by
  intro e he hl c hc
  unfold initialBMap at hc
  by_cases hk : (e.key == "BOUNDARY_1") = true
  · have he1 :
        e = { key := "BOUNDARY_1", name := "COUNTRY", level := 1, code := some BOUNDARY_1_CODE } := by
      refine config_key_unique e he _ (by decide) (beq_iff_eq.mp hk)
    subst he1
    exact absurd hl (by decide)
  · rw [if_neg hk] at hc
    cases hc

lemma process_bfiles_inv :
    ∀ {F : List BFile} {st : DB} {bmap : BMap} {st' : DB} {bmap' : BMap},
      process_bfiles F (st, bmap) = some (st', bmap') →
      StoreInv st → MapInv st bmap →
      StoreInv st' := by
  intro F
  induction F with
  | nil =>
      intro st bmap st' bmap' h hinv hmap
      unfold process_bfiles at h
      simp only [Option.some.injEq, Prod.mk.injEq] at h
      obtain ⟨rfl, rfl⟩ := h
      exact hinv
  | cons f F ih =>
      intro st bmap st' bmap' h hinv hmap
      unfold process_bfiles at h
      cases h1 : process_bfile f st bmap with
      | none => rw [h1] at h; cases h
      | some stb =>
          rw [h1] at h
          simp only [] at h
          have h1' : process_bfile f st bmap = some (stb.1, stb.2) := by rw [h1]
          obtain ⟨hinv1, hmap1⟩ := process_bfile_inv h1' hinv hmap
          exact ih (by rw [← h]) hinv1 hmap1

lemma create_health_facility_boundaries {fuel : Nat} {name mp ft : String}
    {fn : Option String} {tgt : Int} {st st' : DB}
    (h : create_health_facility fuel name mp ft fn tgt st = some st') :
    st'.boundaries = st.boundaries := by
  unfold create_health_facility at h
  simp only [] at h
  by_cases hc : (facility_matches st.boundaries (stripStr name) ft).isEmpty
  · rw [if_pos hc] at h
    simp only [Option.some.injEq] at h
    subst h
    rfl
  · rw [if_neg hc] at h
    exact (process_candidates_cases h (fun b hb => mem_of_mem_facility_matches hb)).1

lemma process_frows_boundaries {fname : String} :
    ∀ {R : List FRow} {st st' : DB},
      process_frows fname R st = some st' → st'.boundaries = st.boundaries := by
  intro R
  induction R with
  | nil =>
      intro st st' h
      unfold process_frows at h
      simp only [Option.some.injEq] at h
      subst h
      rfl
  | cons row R ih =>
      intro st st' h
      unfold process_frows at h
      cases h1 : process_frow fname st row with
      | none => rw [h1] at h; cases h
      | some st1 =>
          rw [h1] at h
          simp only [] at h
          rw [ih h]
          unfold process_frow at h1
          by_cases hf : (falsyCell row.fac_name || falsyCell row.mapping) = true
          · rw [if_pos hf] at h1
            simp only [Option.some.injEq] at h1
            subst h1
            rfl
          · rw [if_neg hf] at h1
            exact create_health_facility_boundaries h1

lemma process_fsheets_boundaries {fname : String} :
    ∀ {S : List FSheet} {st st' : DB},
      process_fsheets fname S st = some st' → st'.boundaries = st.boundaries := by
  intro S
  induction S with
  | nil =>
      intro st st' h
      unfold process_fsheets at h
      simp only [Option.some.injEq] at h
      subst h
      rfl
  | cons ws S ih =>
      intro st st' h
      unfold process_fsheets at h
      by_cases hv : ws.visible
      · rw [if_pos hv] at h
        cases h1 : process_frows fname ws.rows st with
        | none => rw [h1] at h; cases h
        | some st1 =>
            rw [h1] at h
            simp only [] at h
            rw [ih h, process_frows_boundaries h1]
      · rw [if_neg hv] at h
        exact ih h

lemma process_ffiles_boundaries :
    ∀ {F : List FFile} {st st' : DB},
      process_ffiles F st = some st' → st'.boundaries = st.boundaries := by
  intro F
  induction F with
  | nil =>
      intro st st' h
      unfold process_ffiles at h
      simp only [Option.some.injEq] at h
      subst h
      rfl
  | cons f F ih =>
      intro st st' h
      unfold process_ffiles at h
      cases h1 : process_fsheets f.path f.sheets st with
      | none => rw [h1] at h; cases h
      | some st1 =>
          rw [h1] at h
          simp only [] at h
          rw [ih h, process_fsheets_boundaries h1]

/-- C2 (amended): after a run from any store satisfying the store
invariant (in particular the empty store), every stored Boundary with
`boundary_level > 2` has a `parent_code` equal to the code of a stored
Boundary whose level is exactly one less; every stored Boundary sits at
level 2 or deeper, so the level-2 province's parent reference (the static
country code) does not resolve to any stored row. -/
theorem C2_amended_hierarchy_above_two (bfiles : List BFile) (ffiles : List FFile)
    (st0 st' : DB) (hinv : StoreInv st0)
    (h : run_transform bfiles ffiles st0 = some st') :
    (∀ b ∈ st'.boundaries, 2 < b.boundary_level →
      ∃ p ∈ st'.boundaries, some p.code = b.parent_code ∧
        p.boundary_level + 1 = b.boundary_level) ∧
    (∀ b ∈ st'.boundaries, 2 ≤ b.boundary_level) := by
  unfold run_transform at h
  cases hb : process_bfiles bfiles (st0, initialBMap) with
  | none => rw [hb] at h; cases h
  | some stb =>
      rw [hb] at h
      simp only [] at h
      have hb' : process_bfiles bfiles (st0, initialBMap) = some (stb.1, stb.2) := by
        rw [hb]
      have hinv1 : StoreInv stb.1 := process_bfiles_inv hb' hinv (mapInv_initial st0)
      have hbeq : st'.boundaries = stb.1.boundaries := process_ffiles_boundaries h
      constructor
      · intro b hbm hgt
        rw [hbeq] at hbm
        obtain ⟨p, hp, hpc, hpl⟩ := hinv1.2.1 b hbm hgt
        exact ⟨p, by rw [hbeq]; exact hp, hpc, hpl⟩
      · intro b hbm
        rw [hbeq] at hbm
        exact hinv1.2.2.1 b hbm

lemma storeInv_empty : StoreInv DB.empty :=
  ⟨fun b hb => absurd hb (List.not_mem_nil b),
   fun b hb => absurd hb (List.not_mem_nil b),
   fun b hb => absurd hb (List.not_mem_nil b),
   fun b hb => absurd hb (List.not_mem_nil b),
   List.nodup_nil,
   fun b hb => absurd hb (List.not_mem_nil b)⟩

/-- Witness for C2: in the concrete run's store the level-3 district's
parent resolves to a stored boundary at level 2. -/
theorem C2_amended_hierarchy_above_two_witness :
    ∃ p ∈ c2st.boundaries, some p.code = c2b3.parent_code ∧
      p.boundary_level + 1 = c2b3.boundary_level :=
  (C2_amended_hierarchy_above_two [exBFile] [] DB.empty c2st storeInv_empty
    (by decide)).1 c2b3 (by decide) (by decide)

/-- C2 as stated is false at level 2: the run stores the static province
with `parent_code` equal to the static country code, but no boundary row
with that code — indeed none at level 1 at all — is ever stored (the
country object is created in memory and never added to the session). -/
theorem C2_counterexample :
    run_transform [exBFile] [] DB.empty = some c2st ∧
    c2st.boundaries.any (fun b =>
      b.boundary_level == 2 && b.parent_code == some BOUNDARY_1_CODE) = true ∧
    c2st.boundaries.all (fun b => b.code != BOUNDARY_1_CODE) = true ∧
    c2st.boundaries.all (fun b => b.boundary_level != 1) = true :=
  ⟨by decide, by decide, by decide, by decide⟩

end Microplan
